import Mathlib

/-!
Verification development for the Open Rooms Chat (ORC) demo servers.

The definitions below are a shallow embedding of the two server
implementations in the repository:

* `Orcp.*` embeds `bun-server-implementation` — the `handleRequest`
  router branches in `src/index.ts` together with the store and helpers
  of `src/state.ts` / `src/utils.ts`.  JavaScript `Map`s become
  association lists (`aget` / `aset` / `adel` mirror `Map.get`,
  `Map.set`, `Map.delete`); opaque Base32 identifiers become `Nat`;
  RFC 3339 timestamp strings (whose lexicographic order agrees with
  chronological order) become `Nat` clock values that the embedding
  threads explicitly wherever the source calls `nowTs()` / `Date.now()`.
  Fields of `Message` that no verified property touches
  (`room_id`, `dm_peer_id`, `parent_id`, `content_type`, `attachments`)
  are constants from the point of view of every handler modelled here
  and are omitted from the record.

* `DB.*` embeds the corresponding methods of the `DB` class in
  `server-bun/src/inmemory.ts`.
-/

namespace Orcp

/-- Opaque identifier (Base32 string in the source, opaque here). -/
abbrev Id := Nat

/-- Timestamp; the source uses RFC 3339 strings ordered chronologically. -/
abbrev Ts := Nat

/-- Error codes of `utils.error` that the modelled handlers can produce. -/
inductive ErrCode where
  | bad_request
  | unauthorized
  | forbidden
  | not_found
  | conflict
  | internal
deriving DecidableEq, Repr

/-! ### Association-list model of JavaScript `Map` -/

/-- `Map.get`: value of the first entry with the given key. -/
def aget [DecidableEq α] (k : α) : List (α × β) → Option β
  | [] => none
  | (a, b) :: t => if a = k then some b else aget k t

/-- `Map.set`: replace the existing entry in place, else append. -/
def aset [DecidableEq α] (k : α) (v : β) : List (α × β) → List (α × β)
  | [] => [(k, v)]
  | (a, b) :: t => if a = k then (k, v) :: t else (a, b) :: aset k v t

/-- `Map.delete`: remove the entry with the given key, if any. -/
def adel [DecidableEq α] (k : α) : List (α × β) → List (α × β)
  | [] => []
  | (a, b) :: t => if a = k then t else (a, b) :: adel k t

/-- Keys of an association list. -/
def akeys (l : List (α × β)) : List α := l.map Prod.fst

/-! ### Data model (`state.ts` / `types.ts`) -/

/-- Room roles (`RoomRoleName`). -/
inductive Role where
  | owner
  | admin
  | moderator
  | member
  | guest
deriving DecidableEq, Repr

/-- Room visibility: `"public" | "private"`. -/
inductive Visibility where
  | pub
  | priv
deriving DecidableEq, Repr

/-- `Room` of `types.ts`; `members_count` is `counts.members`. -/
structure Room where
  room_id : Id
  name : String
  topic : String
  visibility : Visibility
  owner_id : Id
  created_at : Ts
  members_count : Nat
  pinned_message_ids : List Id
deriving DecidableEq, Repr

/-- `Message` of `types.ts`, restricted to the fields the handlers read or
write.  `reacts` is the hidden per-message `_react : Map<emoji, Set<user_id>>`
that the reactions handler attaches to the message; the public `reactions`
array is derived from it by `reactionCounts`. -/
structure Msg where
  message_id : Id
  author_id : Id
  seq : Nat
  ts : Ts
  text : String
  tombstone : Bool
  edited_at : Option Ts
  reacts : List (String × List Id)
deriving DecidableEq, Repr

/-- The public reaction summary `[{emoji, count}]` derived from `_react`. -/
def reactionCounts (m : Msg) : List (String × Nat) :=
  m.reacts.map (fun p => (p.1, p.2.length))

/-- How many counts user `u` contributes to emoji `e` on message `m`. -/
def userReactCount (m : Msg) (emoji : String) (u : Id) : Nat :=
  ((aget emoji m.reacts).getD []).count u

/-- `TicketRec` of `state.ts` (also the shape of `Ticket` in
`server-bun/src/inmemory.ts`, whose optional `used?` starts falsy). -/
structure TicketRec where
  user_id : Id
  expires_at : Ts
  used : Bool
deriving DecidableEq, Repr

/-- The global in-memory store of `state.ts`.  `users` keeps only the key
set of the `users` map (profiles are irrelevant to the verified claims). -/
structure St where
  users : List Id
  rooms : List (Id × Room)
  roomByName : List (String × Id)
  roomMembers : List (Id × List (Id × Role))
  roomMessages : List (Id × List Msg)
  roomNextSeq : List (Id × Nat)
  roomCursors : List (Id × List (Id × Nat))
  dmPairs : List ((Id × Id) × List Msg)
  dmNextSeq : List ((Id × Id) × Nat)
  dmCursors : List ((Id × Id) × List (Id × Nat))
  wsTickets : List (Id × TicketRec)
deriving DecidableEq, Repr

def emptySt : St :=
  { users := [], rooms := [], roomByName := [], roomMembers := [],
    roomMessages := [], roomNextSeq := [], roomCursors := [],
    dmPairs := [], dmNextSeq := [], dmCursors := [], wsTickets := [] }

/-! ### `state.ts` operations -/

/-- `normalizeRoomName`: `name.trim().toLowerCase()`. -/
def normalizeRoomName (name : String) : String := name.trim.toLower

/-- `createRoom` of `state.ts`; the random `newId128()` and `nowTs()` become
the `room_id` / `now` parameters.  The name-conflict guard is the one the
`POST /rooms` handler performs on `roomByName` before calling `createRoom`
(`createRoom` itself re-checks and throws). -/
def createRoom (st : St) (owner_id : Id) (name : String) (visibility : Visibility)
    (topic : String) (room_id : Id) (now : Ts) : Except ErrCode (St × Room) :=
  let norm := normalizeRoomName name
  if (aget norm st.roomByName).isSome then .error .conflict
  else
    let room : Room :=
      { room_id := room_id, name := name, topic := topic, visibility := visibility,
        owner_id := owner_id, created_at := now, members_count := 1,
        pinned_message_ids := [] }
    .ok ({ st with
            rooms := aset room_id room st.rooms
            roomByName := aset norm room_id st.roomByName
            roomMembers := aset room_id [(owner_id, Role.owner)] st.roomMembers
            roomMessages := aset room_id [] st.roomMessages
            roomNextSeq := aset room_id 1 st.roomNextSeq
            roomCursors := aset room_id [] st.roomCursors },
          room)

/-- `addMember` of `state.ts`: create the member map if missing; if the user
is not yet a member, record the role and increment `counts.members` of the
room (when the room exists). Re-adding an existing member changes nothing. -/
def addMember (st : St) (room_id user_id : Id) (role : Role) : St :=
  let m := (aget room_id st.roomMembers).getD []
  if (aget user_id m).isSome then st
  else
    let rooms2 := match aget room_id st.rooms with
      | some r => aset room_id { r with members_count := r.members_count + 1 } st.rooms
      | none => st.rooms
    { st with roomMembers := aset room_id (aset user_id role m) st.roomMembers,
              rooms := rooms2 }

/-- `removeMember` of `state.ts`: if the member map deletion succeeds,
decrement `counts.members` (guarded by `> 0`) of the room when it exists. -/
def removeMember (st : St) (room_id user_id : Id) : St :=
  match aget room_id st.roomMembers with
  | none => st
  | some mm =>
    if (aget user_id mm).isSome then
      let rooms2 := match aget room_id st.rooms with
        | some r =>
          if r.members_count > 0 then
            aset room_id { r with members_count := r.members_count - 1 } st.rooms
          else st.rooms
        | none => st.rooms
      { st with roomMembers := aset room_id (adel user_id mm) st.roomMembers,
                rooms := rooms2 }
    else st

/-- `pairKey`: canonical unordered pair. -/
def pairKey (a b : Id) : Id × Id := if a < b then (a, b) else (b, a)

/-- `ensureDmPair` of `state.ts`. -/
def ensureDmPair (st : St) (a b : Id) : St × (Id × Id) :=
  let key := pairKey a b
  if (aget key st.dmPairs).isSome then (st, key)
  else
    ({ st with dmPairs := aset key [] st.dmPairs,
               dmNextSeq := aset key 1 st.dmNextSeq,
               dmCursors := aset key [] st.dmCursors }, key)

/-! ### Message-search helpers

The edit/delete/reaction handlers scan `roomMessages` (in map iteration
order) for the first message with the requested id — these two functions
are that loop, split into its lookup and its update. -/

/-- Replace the first message with id `mid` in a room's list by `f` of it. -/
def updMsgIn (mid : Id) (f : Msg → Msg) : List Msg → Option (List Msg)
  | [] => none
  | m :: t =>
    if m.message_id = mid then some (f m :: t)
    else (updMsgIn mid f t).map (m :: ·)

/-- First message with id `mid` in a room's list. -/
def findMsgIn (mid : Id) : List Msg → Option Msg
  | [] => none
  | m :: t => if m.message_id = mid then some m else findMsgIn mid t

/-- Apply `f` to the first message with id `mid` across all room logs. -/
def updMsgInRooms (mid : Id) (f : Msg → Msg) :
    List (Id × List Msg) → Option (List (Id × List Msg))
  | [] => none
  | (rid, l) :: t =>
    match updMsgIn mid f l with
    | some l2 => some ((rid, l2) :: t)
    | none => (updMsgInRooms mid f t).map ((rid, l) :: ·)

/-- First message with id `mid` across all room logs. -/
def findMsgInRooms (mid : Id) : List (Id × List Msg) → Option Msg
  | [] => none
  | (_, l) :: t =>
    match findMsgIn mid l with
    | some m => some m
    | none => findMsgInRooms mid t

/-! ### `handleRequest` branches (`index.ts` of `bun-server-implementation`) -/

/-- JavaScript `x || 1` on `roomNextSeq.get(room_id)`: `undefined` and `0`
are falsy. -/
def orOne : Option Nat → Nat
  | none => 1
  | some n => if n = 0 then 1 else n

/-- `POST /rooms/{room_id}/messages`.  The route guard 404s unknown rooms;
`if (!body?.text)` rejects a missing or empty `text` (no length check);
`newId128()` / `nowTs()` become the `mid` / `now` parameters.  The caller
is the authenticated user (`requireAuth`). -/
def handlePostRoomMessage (st : St) (rid author : Id) (text : String)
    (mid : Id) (now : Ts) : Except ErrCode (St × Msg) :=
  if (aget rid st.rooms).isNone then .error .not_found
  else if text = "" then .error .bad_request
  else
    let seq := orOne (aget rid st.roomNextSeq)
    let msg : Msg :=
      { message_id := mid, author_id := author, seq := seq, ts := now,
        text := text, tombstone := false, edited_at := none, reacts := [] }
    let arr := (aget rid st.roomMessages).getD []
    .ok ({ st with
            roomNextSeq := aset rid (seq + 1) st.roomNextSeq,
            roomMessages := aset rid (arr ++ [msg]) st.roomMessages },
          msg)

/-- `GET /rooms/{room_id}/messages?from_seq=&limit=`.  No authentication is
consulted (the branch never calls `requireAuth`); the limit is clamped to
`max(1, min(200, limit))`; `next_seq` is `last.seq + 1`, or the stream's
`roomNextSeq ?? 1` when the slice is empty. -/
def handleGetRoomMessages (st : St) (rid : Id) (fromSeq limitRaw : Nat) :
    Except ErrCode (List Msg × Nat) :=
  if (aget rid st.rooms).isNone then .error .not_found
  else
    let limit := max 1 (min 200 limitRaw)
    let arr := (aget rid st.roomMessages).getD []
    let slice := (arr.filter (fun m => decide (fromSeq ≤ m.seq))).take limit
    let next_seq :=
      match slice.getLast? with
      | some last => last.seq + 1
      | none => (aget rid st.roomNextSeq).getD 1
    .ok (slice, next_seq)

/-- `GET /rooms/{room_id}/messages/backfill?before_seq=&limit=`: no room
existence check and no authentication; `slice(-limit)` keeps the last
`limit` filtered messages; `prev_seq` is `first.seq` or 0. -/
def handleRoomBackfill (st : St) (rid : Id) (before limitRaw : Nat) :
    Except ErrCode (List Msg × Nat) :=
  let limit := max 1 (min 200 limitRaw)
  let arr := (aget rid st.roomMessages).getD []
  let f := arr.filter (fun m => decide (m.seq < before))
  let slice := f.drop (f.length - limit)
  let prev_seq :=
    match slice.head? with
    | some first => first.seq
    | none => 0
  .ok (slice, prev_seq)

/-- `DELETE /messages/{message_id}`: the branch performs **no**
authentication or authorization check; the first message with the id is
replaced by `{...existing, tombstone: true, ts: nowTs()}` (text retained). -/
def handleDeleteMessage (st : St) (mid : Id) (now : Ts) : Except ErrCode St :=
  match updMsgInRooms mid (fun m => { m with tombstone := true, ts := now })
      st.roomMessages with
  | some rm => .ok { st with roomMessages := rm }
  | none => .error .not_found

/-- `PATCH /messages/{message_id}`: `requireAuth` gives `caller`; forbidden
unless `existing.author_id == caller`; the update is
`{...existing, ...body, edited_at: nowTs()}` with `body` of declared type
`Partial<Pick<Message, "text" | "attachments">>` — `seq`, `ts` and
`tombstone` are untouched. -/
def handleEditMessage (st : St) (mid caller : Id) (newText : Option String)
    (now : Ts) : Except ErrCode St :=
  match findMsgInRooms mid st.roomMessages with
  | none => .error .not_found
  | some m =>
    if m.author_id ≠ caller then .error .forbidden
    else
      let f := fun mm : Msg =>
        { mm with text := newText.getD mm.text, edited_at := some now }
      .ok { st with
              roomMessages := (updMsgInRooms mid f st.roomMessages).getD
                st.roomMessages }

/-- The `set.add(user)` step of the reactions handler on the hidden
`_react : Map<emoji, Set<user_id>>` (a `Set` keeps one copy per element). -/
def addReact (emoji : String) (u : Id) (reacts : List (String × List Id)) :
    List (String × List Id) :=
  match aget emoji reacts with
  | none => aset emoji [u] reacts
  | some s => aset emoji (if u ∈ s then s else s ++ [u]) reacts

/-- `POST /messages/{message_id}/reactions`: `requireAuth` gives `caller`;
404 when no message has the id, 400 when `emoji` is missing/empty, else add
`caller` to the per-emoji user set. -/
def handleReactAdd (st : St) (mid caller : Id) (emoji : String) :
    Except ErrCode St :=
  match findMsgInRooms mid st.roomMessages with
  | none => .error .not_found
  | some _ =>
    if emoji = "" then .error .bad_request
    else
      .ok { st with
              roomMessages := (updMsgInRooms mid
                (fun m => { m with reacts := addReact emoji caller m.reacts })
                st.roomMessages).getD st.roomMessages }

/-- `POST /rooms/{room_id}/ack`: stores `body.seq` for the caller with a
plain `map.set` — no comparison with the existing cursor. -/
def handleRoomAck (st : St) (room_id caller : Id) (seq : Nat) : St :=
  let map := (aget room_id st.roomCursors).getD []
  { st with roomCursors := aset room_id (aset caller seq map) st.roomCursors }

/-- `GET /rooms/{room_id}/cursor`: `roomCursors.get(room_id)?.get(user) || 0`. -/
def handleRoomCursor (st : St) (room_id caller : Id) : Nat :=
  match aget room_id st.roomCursors with
  | none => 0
  | some m => (aget caller m).getD 0

/-- `POST /dms/{peer}/ack`: `ensureDmPair` then a plain `map.set`. -/
def handleDmAck (st : St) (caller peer : Id) (seq : Nat) : St :=
  let p := ensureDmPair st caller peer
  let map := (aget p.2 p.1.dmCursors).getD []
  { p.1 with dmCursors := aset p.2 (aset caller seq map) p.1.dmCursors }

/-- `GET /dms/{peer}/cursor`: `dmCursors.get(pairKey)?.get(user) || 0`. -/
def handleDmCursor (st : St) (caller peer : Id) : Nat :=
  match aget (pairKey caller peer) st.dmCursors with
  | none => 0
  | some m => (aget caller m).getD 0

/-- `POST /rtm/ticket`: records `{user_id, expires_at: Date.now() + 60_000,
used: false}` under a fresh ticket id. -/
def mintTicket (st : St) (caller ticket : Id) (now : Ts) : St :=
  let rec0 : TicketRec := { user_id := caller, expires_at := now + 60000, used := false }
  { st with wsTickets := aset ticket rec0 st.wsTickets }

/-- The ticket arm of the `GET /rtm` upgrade: accept iff the ticket record
exists, is unused, and `rec.expires_at > Date.now()`; on success (and only
when the referenced user still exists) mark the record used. -/
def consumeTicket (st : St) (t : Id) (now : Ts) : Option Id × St :=
  match aget t st.wsTickets with
  | none => (none, st)
  | some rec =>
    if rec.used then (none, st)
    else if now < rec.expires_at then
      if rec.user_id ∈ st.users then
        (some rec.user_id,
         { st with wsTickets := aset t { rec with used := true } st.wsTickets })
      else (none, st)
    else (none, st)

/-- The `limits` object of `capResponse` (`GET /meta/capabilities`). -/
structure Limits where
  max_message_bytes : Nat
  max_upload_bytes : Nat
  max_reactions_per_message : Nat
  cursor_idle_timeout_ms : Nat
deriving DecidableEq, Repr

def capLimits : Limits :=
  { max_message_bytes := 4000, max_upload_bytes := 16777216,
    max_reactions_per_message := 32, cursor_idle_timeout_ms := 300000 }

/-- Modelled from the spec (the demo handler has no such check): a caller
has `purge_message` permission in a room iff their role there is
moderator, admin or owner. Used only to state the authorization claims. -/
def specPurgePermission (st : St) (room_id caller : Id) : Bool :=
  match aget caller ((aget room_id st.roomMembers).getD []) with
  | some .moderator => true
  | some .admin => true
  | some .owner => true
  | _ => false

/-- Whether a handler response is a success. -/
def exceptIsOk : Except ε α → Bool
  | .ok _ => true
  | .error _ => false

end Orcp

namespace DB

open Orcp

/-- `Message` of `server-bun/src/inmemory.ts`, restricted to the fields the
modelled methods touch; `reactions` is the public `{emoji, count}` list
(that implementation keeps no per-user reaction state). -/
structure Msg where
  author : Id
  seq : Nat
  ts : Ts
  text : String
  tombstone : Bool
  reactions : List (String × Nat)
  edited_at : Option Ts
deriving DecidableEq, Repr

/-- `DB.react`: find the `{emoji, count}` entry (pushing a `count: 0` entry
first when adding a new emoji); `add` sets `count = Math.max(1, count + 1)`,
remove sets `count = Math.max(0, count - 1)` (here `Nat` truncated
subtraction). No user identity is recorded. -/
def react (m : Msg) (emoji : String) (add : Bool) : Msg :=
  match aget emoji m.reactions with
  | none =>
    if add then
      { m with reactions := aset emoji (max 1 (0 + 1)) (m.reactions ++ [(emoji, 0)]) }
    else m
  | some c =>
    if add then { m with reactions := aset emoji (max 1 (c + 1)) m.reactions }
    else { m with reactions := aset emoji (c - 1) m.reactions }

/-- `DB.deleteMessage` on a found message: throws `forbidden` unless the
caller is the author; else sets `tombstone = true` and `ts = now`. -/
def deleteMessage (m : Msg) (caller : Id) (now : Ts) : Except ErrCode Msg :=
  if m.author ≠ caller then .error .forbidden
  else .ok { m with tombstone := true, ts := now }

/-- `DB.useTicket`: `null` when missing, used, or `Date.now() > expires_at`
— a consume at `now = expires_at` is accepted; on success mark used. -/
def useTicket (tks : List (Id × TicketRec)) (t : Id) (now : Ts) :
    Option Id × List (Id × TicketRec) :=
  match aget t tks with
  | none => (none, tks)
  | some rec =>
    if rec.used || decide (rec.expires_at < now) then (none, tks)
    else (some rec.user_id, aset t { rec with used := true } tks)

end DB

namespace Orcp

/-! ### Operation sequences over the store -/

/-- The mutating message operations of the protocol core, as reached through
the HTTP handlers: post, edit, tombstone (`del`) and react-add. -/
inductive SOp where
  | post (rid author mid : Id) (text : String)
  | edit (mid caller : Id) (text : Option String)
  | reactAdd (mid caller : Id) (emoji : String)
  | del (mid : Id)
deriving DecidableEq, Repr

/-- Run one operation at clock value `now`; a handler error leaves the
store unchanged (validation errors never mutate state). -/
def applySOp (st : St) : SOp × Ts → St
  | (.post rid a mid t, now) =>
    match handlePostRoomMessage st rid a t mid now with
    | .ok p => p.1
    | .error _ => st
  | (.edit mid c t, now) =>
    match handleEditMessage st mid c t now with
    | .ok s => s
    | .error _ => st
  | (.reactAdd mid c e, _) =>
    match handleReactAdd st mid c e with
    | .ok s => s
    | .error _ => st
  | (.del mid, now) =>
    match handleDeleteMessage st mid now with
    | .ok s => s
    | .error _ => st

/-- Run a trace of timestamped operations. -/
def runSOps (st : St) (tr : List (SOp × Ts)) : St := tr.foldl applySOp st

/-- One post request: author, fresh message id, body text, clock value. -/
structure PostIn where
  author : Id
  mid : Id
  text : String
  now : Ts
deriving DecidableEq, Repr

/-- The message the post handler builds for request `it` at seq `seq`. -/
def mkPostMsg (it : PostIn) (seq : Nat) : Msg :=
  { message_id := it.mid, author_id := it.author, seq := seq, ts := it.now,
    text := it.text, tombstone := false, edited_at := none, reacts := [] }

/-- Post to a fixed room (errors leave the store unchanged). -/
def postStep (rid : Id) (st : St) (it : PostIn) : St :=
  match handlePostRoomMessage st rid it.author it.text it.mid it.now with
  | .ok p => p.1
  | .error _ => st

/-- Post a batch of messages to one room, in order. -/
def postList (st : St) (rid : Id) (items : List PostIn) : St :=
  items.foldl (postStep rid) st

/-- The room/membership operations of `state.ts`. -/
inductive RoomOp where
  | create (owner : Id) (name : String) (vis : Visibility) (topic : String)
      (room_id : Id) (now : Ts)
  | add (room_id user_id : Id) (role : Role)
  | remove (room_id user_id : Id)
deriving DecidableEq, Repr

def applyRoomOp (st : St) : RoomOp → St
  | .create o n v t rid now =>
    match createRoom st o n v t rid now with
    | .ok p => p.1
    | .error _ => st
  | .add rid uid role => addMember st rid uid role
  | .remove rid uid => removeMember st rid uid

/-- Run room/membership operations from the empty store. -/
def runRoomOps (ops : List RoomOp) : St := ops.foldl applyRoomOp emptySt

/-! ### Invariants -/

/-- Every stored room's `counts.members` equals the number of entries in
its member map. -/
def memberInv (st : St) : Prop :=
  ∀ rid r, aget rid st.rooms = some r →
    r.members_count = ((aget rid st.roomMembers).getD []).length

/-- The seq/ts ordering invariant of a store at clock bound `c`: each room
log is strictly increasing in `seq` and nondecreasing in `ts`, every `ts`
is at most `c`, and every `seq` is below the seq the stream would allocate
next. -/
def seqTsInv (st : St) (c : Ts) : Prop :=
  ∀ rid l, aget rid st.roomMessages = some l →
    List.Pairwise (fun a b : Msg => a.seq < b.seq) l ∧
    List.Pairwise (fun a b : Msg => a.ts ≤ b.ts) l ∧
    (∀ m ∈ l, m.ts ≤ c) ∧
    (∀ m ∈ l, m.seq < orOne (aget rid st.roomNextSeq))

/-! ### Concrete fixtures -/

def msgEx : Msg :=
  { message_id := 5, author_id := 1, seq := 1, ts := 1, text := "secret",
    tombstone := false, edited_at := none, reacts := [] }

def roomEx : Room :=
  { room_id := 1, name := "general", topic := "", visibility := .pub,
    owner_id := 1, created_at := 0, members_count := 1,
    pinned_message_ids := [] }

/-- One room (`1`, owned by user `1`) holding `msgEx`, one spare user `2`
who is not a member, and one pending RTM ticket `3` for user `1`. -/
def stEx : St :=
  { users := [1, 2], rooms := [(1, roomEx)], roomByName := [("general", 1)],
    roomMembers := [(1, [(1, .owner)])], roomMessages := [(1, [msgEx])],
    roomNextSeq := [(1, 2)], roomCursors := [(1, [])],
    dmPairs := [], dmNextSeq := [], dmCursors := [], wsTickets :=
      [(3, { user_id := 1, expires_at := 100, used := false })] }

/-- Same room but with an empty, freshly created stream. -/
def stFresh : St :=
  { users := [1], rooms := [(1, roomEx)], roomByName := [("general", 1)],
    roomMembers := [(1, [(1, .owner)])], roomMessages := [(1, [])],
    roomNextSeq := [(1, 1)], roomCursors := [(1, [])],
    dmPairs := [], dmNextSeq := [], dmCursors := [], wsTickets := [] }

/-- 201 post requests with distinct fresh ids. -/
def itemsC4 : List PostIn :=
  (List.range 201).map (fun i => { author := 1, mid := 100 + i, text := "a", now := 0 })

/-- Post "a" at time 1, post "b" at time 2, tombstone the first at time 3. -/
def trC5 : List (SOp × Ts) :=
  [(SOp.post 1 1 10 "a", 1), (SOp.post 1 1 11 "b", 2), (SOp.del 10, 3)]

/-- Two small posts. -/
def itemsW : List PostIn :=
  [{ author := 1, mid := 30, text := "a", now := 0 },
   { author := 1, mid := 31, text := "b", now := 0 }]

/-- The two messages of `trC5` after the tombstone: the first (seq 1) now
carries `ts = 3`, later than the second (seq 2, `ts = 2`). -/
def msgC5a : Msg :=
  { message_id := 10, author_id := 1, seq := 1, ts := 3, text := "a",
    tombstone := true, edited_at := none, reacts := [] }

def msgC5b : Msg :=
  { message_id := 11, author_id := 1, seq := 2, ts := 2, text := "b",
    tombstone := false, edited_at := none, reacts := [] }

/-- Two posts at increasing clock values (no tombstone). -/
def trW : List (SOp × Ts) :=
  [(SOp.post 1 1 40 "a", 1), (SOp.post 1 1 41 "b", 2)]

def msgWa : Msg :=
  { message_id := 40, author_id := 1, seq := 1, ts := 1, text := "a",
    tombstone := false, edited_at := none, reacts := [] }

def msgWb : Msg :=
  { message_id := 41, author_id := 1, seq := 2, ts := 2, text := "b",
    tombstone := false, edited_at := none, reacts := [] }

/-- A 4001-character message body (4001 UTF-8 bytes). -/
def longText : String := String.mk (List.replicate 4001 'a')

/-- `stEx` after user 2 reacted `"x"` on message 5. -/
def stC2 : St :=
  { stEx with roomMessages := [(1, [{ msgEx with reacts := [("x", [2])] }])] }

/-- `stEx` after message 5 was tombstoned at time 9. -/
def stC1d : St :=
  { stEx with roomMessages := [(1, [{ msgEx with tombstone := true, ts := 9 }])] }

/-- The message the handler builds for a 4001-byte post at time 7. -/
def msgC8 : Msg :=
  { message_id := 20, author_id := 1, seq := 1, ts := 7, text := longText,
    tombstone := false, edited_at := none, reacts := [] }

/-- `stFresh` after the 4001-byte post was accepted. -/
def stC8r : St :=
  { stFresh with roomNextSeq := [(1, 2)], roomMessages := [(1, [msgC8])] }

end Orcp

namespace Orcp

/-! ### Lemmas about the map model -/

@[simp] theorem aget_nil [DecidableEq α] (k : α) :
    aget (β := β) k [] = none := rfl

@[simp] theorem aget_cons [DecidableEq α] (k a : α) (b : β) (t : List (α × β)) :
    aget k ((a, b) :: t) = if a = k then some b else aget k t := rfl

@[simp] theorem aset_nil [DecidableEq α] (k : α) (v : β) :
    aset k v [] = [(k, v)] := rfl

@[simp] theorem aset_cons [DecidableEq α] (k a : α) (v b : β) (t : List (α × β)) :
    aset k v ((a, b) :: t) =
      if a = k then (k, v) :: t else (a, b) :: aset k v t := rfl

@[simp] theorem aget_aset_self [DecidableEq α] (k : α) (v : β) (l : List (α × β)) :
    aget k (aset k v l) = some v := by
  induction l with
  | nil => simp [aget, aset]
  | cons hd t ih =>
    obtain ⟨a, b⟩ := hd
    by_cases h : a = k <;> simp [aget, aset, h, ih]

theorem aget_aset_ne [DecidableEq α] {k k' : α} (h : k ≠ k') (v : β)
    (l : List (α × β)) : aget k' (aset k v l) = aget k' l := by
  induction l with
  | nil => simp [aget, aset, h]
  | cons hd t ih =>
    obtain ⟨a, b⟩ := hd
    by_cases ha : a = k
    · subst ha; simp [aget, aset, h]
    · simp only [aset, if_neg ha]
      by_cases ha' : a = k' <;> simp [aget, ha', ih]

/-- Setting a key back to the value it already holds is a no-op. -/
theorem aset_self [DecidableEq α] {k : α} {v : β} {l : List (α × β)}
    (h : aget k l = some v) : aset k v l = l := by
  induction l with
  | nil => simp [aget] at h
  | cons hd t ih =>
    obtain ⟨a, b⟩ := hd
    by_cases ha : a = k
    · subst ha
      simp [aget] at h
      simp [aset, h]
    · simp [aget, ha] at h
      simp [aset, ha, ih h]

@[simp] theorem akeys_nil : akeys ([] : List (α × β)) = [] := rfl

@[simp] theorem akeys_cons (a : α) (b : β) (t : List (α × β)) :
    akeys ((a, b) :: t) = a :: akeys t := rfl

theorem akeys_aset [DecidableEq α] (k : α) (v : β) (l : List (α × β)) :
    akeys (aset k v l) = if (aget k l).isSome then akeys l else akeys l ++ [k] := by
  induction l with
  | nil => simp [aset, aget, akeys]
  | cons hd t ih =>
    obtain ⟨a, b⟩ := hd
    by_cases h : a = k
    · subst h; simp [aset, aget, akeys]
    · simp only [aset, if_neg h, akeys_cons, aget_cons, ih]
      by_cases hs : (aget k t).isSome <;> simp [hs, h]

theorem aget_isSome_of_mem_akeys [DecidableEq α] {k : α} {l : List (α × β)}
    (h : k ∈ akeys l) : (aget k l).isSome := by
  induction l with
  | nil => simp [akeys] at h
  | cons hd t ih =>
    obtain ⟨a, b⟩ := hd
    rcases List.mem_cons.1 h with h1 | h2
    · simp [aget, h1]
    · by_cases ha : a = k <;> simp [aget, ha, ih h2]

theorem mem_akeys_of_aget_isSome [DecidableEq α] {k : α} {l : List (α × β)}
    (h : (aget k l).isSome) : k ∈ akeys l := by
  induction l with
  | nil => simp [aget] at h
  | cons hd t ih =>
    obtain ⟨a, b⟩ := hd
    by_cases ha : a = k
    · simp [akeys, ha]
    · simp only [aget_cons, if_neg ha] at h
      exact List.mem_cons.2 (Or.inr (ih h))

theorem length_aset [DecidableEq α] (k : α) (v : β) (l : List (α × β)) :
    (aset k v l).length =
      if (aget k l).isSome then l.length else l.length + 1 := by
  induction l with
  | nil => simp [aset, aget]
  | cons hd t ih =>
    obtain ⟨a, b⟩ := hd
    by_cases h : a = k
    · subst h; simp [aset, aget]
    · simp only [aset, if_neg h, List.length_cons, aget_cons, ih]
      by_cases hs : (aget k t).isSome <;> simp [hs, h]

/-- `adel` removes one entry when the key is present. -/
theorem length_adel_of_isSome [DecidableEq α] {k : α} {l : List (α × β)}
    (h : (aget k l).isSome) : (adel k l).length = l.length - 1 := by
  induction l with
  | nil => simp [aget] at h
  | cons hd t ih =>
    obtain ⟨a, b⟩ := hd
    by_cases ha : a = k
    · simp [adel, ha]
    · simp only [aget_cons, if_neg ha] at h
      have hne : t.length ≥ 1 := by
        cases t with
        | nil => simp [aget] at h
        | cons x xs => simp
      simp only [adel, if_neg ha, List.length_cons, ih h]
      omega

theorem adel_of_none [DecidableEq α] {k : α} {l : List (α × β)}
    (h : aget k l = none) : adel k l = l := by
  induction l with
  | nil => simp [adel]
  | cons hd t ih =>
    obtain ⟨a, b⟩ := hd
    by_cases ha : a = k
    · simp [aget, ha] at h
    · simp [aget, ha] at h
      simp [adel, ha, ih h]

/-! ### Lemmas about the message-search helpers -/

@[simp] theorem updMsgIn_nil (mid : Id) (f : Msg → Msg) :
    updMsgIn mid f [] = none := rfl

@[simp] theorem updMsgIn_cons (mid : Id) (f : Msg → Msg) (m : Msg) (t : List Msg) :
    updMsgIn mid f (m :: t) =
      if m.message_id = mid then some (f m :: t)
      else (updMsgIn mid f t).map (m :: ·) := rfl

@[simp] theorem findMsgIn_nil (mid : Id) : findMsgIn mid [] = none := rfl

@[simp] theorem findMsgIn_cons (mid : Id) (m : Msg) (t : List Msg) :
    findMsgIn mid (m :: t) =
      if m.message_id = mid then some m else findMsgIn mid t := rfl

@[simp] theorem updMsgInRooms_nil (mid : Id) (f : Msg → Msg) :
    updMsgInRooms mid f [] = none := rfl

@[simp] theorem updMsgInRooms_cons (mid : Id) (f : Msg → Msg) (rid : Id)
    (l : List Msg) (t : List (Id × List Msg)) :
    updMsgInRooms mid f ((rid, l) :: t) =
      match updMsgIn mid f l with
      | some l2 => some ((rid, l2) :: t)
      | none => (updMsgInRooms mid f t).map ((rid, l) :: ·) := rfl

@[simp] theorem findMsgInRooms_nil (mid : Id) : findMsgInRooms mid [] = none := rfl

@[simp] theorem findMsgInRooms_cons (mid : Id) (rid : Id) (l : List Msg)
    (t : List (Id × List Msg)) :
    findMsgInRooms mid ((rid, l) :: t) =
      match findMsgIn mid l with
      | some m => some m
      | none => findMsgInRooms mid t := rfl

theorem updMsgIn_isSome (mid : Id) (f : Msg → Msg) (l : List Msg) :
    (updMsgIn mid f l).isSome = (findMsgIn mid l).isSome := by
  induction l with
  | nil => rfl
  | cons m t ih =>
    by_cases h : m.message_id = mid <;> simp [h, ih]

theorem updMsgIn_none_iff {mid : Id} {f : Msg → Msg} {l : List Msg} :
    updMsgIn mid f l = none ↔ findMsgIn mid l = none := by
  constructor <;> intro h
  · cases hf : findMsgIn mid l with
    | none => rfl
    | some m =>
      have hs := updMsgIn_isSome mid f l
      rw [h, hf] at hs
      simp at hs
  · cases hu : updMsgIn mid f l with
    | none => rfl
    | some l2 =>
      have hs := updMsgIn_isSome mid f l
      rw [h, hu] at hs
      simp at hs

theorem findMsgIn_updMsgIn_self {mid : Id} {f : Msg → Msg} {l l2 : List Msg}
    (hid : ∀ m, (f m).message_id = m.message_id)
    (h : updMsgIn mid f l = some l2) :
    findMsgIn mid l2 = (findMsgIn mid l).map f := by
  induction l generalizing l2 with
  | nil => simp at h
  | cons m t ih =>
    by_cases hm : m.message_id = mid
    · simp only [updMsgIn_cons, if_pos hm, Option.some.injEq] at h
      subst h
      simp [findMsgIn, hid, hm]
    · simp only [updMsgIn_cons, if_neg hm, Option.map_eq_some'] at h
      obtain ⟨t2, ht2, hl2⟩ := h
      subst hl2
      simp [findMsgIn, hm, ih ht2]

theorem findMsgIn_updMsgIn_ne {mid mid2 : Id} {f : Msg → Msg} {l l2 : List Msg}
    (hid : ∀ m, (f m).message_id = m.message_id) (hne : mid2 ≠ mid)
    (h : updMsgIn mid f l = some l2) :
    findMsgIn mid2 l2 = findMsgIn mid2 l := by
  induction l generalizing l2 with
  | nil => simp at h
  | cons m t ih =>
    by_cases hm : m.message_id = mid
    · simp only [updMsgIn_cons, if_pos hm, Option.some.injEq] at h
      subst h
      have hfm : ¬ (f m).message_id = mid2 := by
        rw [hid m, hm]
        exact fun hh => hne hh.symm
      have hmm : ¬ m.message_id = mid2 := by
        rw [hm]
        exact fun hh => hne hh.symm
      simp [findMsgIn, hfm, hmm]
    · simp only [updMsgIn_cons, if_neg hm, Option.map_eq_some'] at h
      obtain ⟨t2, ht2, hl2⟩ := h
      subst hl2
      by_cases hm2 : m.message_id = mid2 <;> simp [findMsgIn, hm2, ih ht2]

theorem updMsgIn_comp {mid : Id} {f g : Msg → Msg} {l l2 : List Msg}
    (hid : ∀ m, (f m).message_id = m.message_id)
    (h : updMsgIn mid f l = some l2) :
    updMsgIn mid g l2 = updMsgIn mid (fun m => g (f m)) l := by
  induction l generalizing l2 with
  | nil => simp at h
  | cons m t ih =>
    by_cases hm : m.message_id = mid
    · simp only [updMsgIn_cons, if_pos hm, Option.some.injEq] at h
      subst h
      simp [updMsgIn, hid, hm]
    · simp only [updMsgIn_cons, if_neg hm, Option.map_eq_some'] at h
      obtain ⟨t2, ht2, hl2⟩ := h
      subst hl2
      simp [updMsgIn, hm, ih ht2]

/-- Updating one message leaves every projection untouched by the update
unchanged over the whole list. -/
theorem updMsgIn_map_proj {γ : Type} (proj : Msg → γ) {mid : Id}
    {f : Msg → Msg} {l l2 : List Msg}
    (hproj : ∀ m, proj (f m) = proj m)
    (h : updMsgIn mid f l = some l2) :
    l2.map proj = l.map proj := by
  induction l generalizing l2 with
  | nil => simp at h
  | cons m t ih =>
    by_cases hm : m.message_id = mid
    · simp only [updMsgIn_cons, if_pos hm, Option.some.injEq] at h
      subst h
      simp [hproj]
    · simp only [updMsgIn_cons, if_neg hm, Option.map_eq_some'] at h
      obtain ⟨t2, ht2, hl2⟩ := h
      subst hl2
      simp [ih ht2]

theorem updMsgInRooms_isSome (mid : Id) (f : Msg → Msg)
    (rooms : List (Id × List Msg)) :
    (updMsgInRooms mid f rooms).isSome = (findMsgInRooms mid rooms).isSome := by
  induction rooms with
  | nil => rfl
  | cons hd t ih =>
    obtain ⟨rid, l⟩ := hd
    simp only [updMsgInRooms_cons, findMsgInRooms_cons]
    cases hu : updMsgIn mid f l with
    | some l2 =>
      cases hf : findMsgIn mid l with
      | some m => simp
      | none =>
        rw [updMsgIn_none_iff.2 hf] at hu
        cases hu
    | none =>
      cases hf : findMsgIn mid l with
      | some m =>
        rw [updMsgIn_none_iff.1 hu] at hf
        cases hf
      | none => simp [ih]

theorem updMsgInRooms_none_iff {mid : Id} {f : Msg → Msg}
    {rooms : List (Id × List Msg)} :
    updMsgInRooms mid f rooms = none ↔ findMsgInRooms mid rooms = none := by
  constructor <;> intro h
  · cases hf : findMsgInRooms mid rooms with
    | none => rfl
    | some m =>
      have hs := updMsgInRooms_isSome mid f rooms
      rw [h, hf] at hs
      simp at hs
  · cases hu : updMsgInRooms mid f rooms with
    | none => rfl
    | some rm =>
      have hs := updMsgInRooms_isSome mid f rooms
      rw [h, hu] at hs
      simp at hs

theorem findMsgInRooms_updMsgInRooms_self {mid : Id} {f : Msg → Msg}
    {rooms rm : List (Id × List Msg)}
    (hid : ∀ m, (f m).message_id = m.message_id)
    (h : updMsgInRooms mid f rooms = some rm) :
    findMsgInRooms mid rm = (findMsgInRooms mid rooms).map f := by
  induction rooms generalizing rm with
  | nil => simp at h
  | cons hd t ih =>
    obtain ⟨rid, l⟩ := hd
    simp only [updMsgInRooms_cons] at h
    cases hu : updMsgIn mid f l with
    | some l2 =>
      rw [hu] at h
      cases h
      have hfind := findMsgIn_updMsgIn_self hid hu
      cases hf : findMsgIn mid l with
      | none =>
        rw [updMsgIn_none_iff.2 hf] at hu
        cases hu
      | some m =>
        rw [hf] at hfind
        simp [findMsgInRooms_cons, hfind, hf]
    | none =>
      rw [hu] at h
      simp only [Option.map_eq_some'] at h
      obtain ⟨rm2, hrm2, hrm⟩ := h
      subst hrm
      have hf : findMsgIn mid l = none := updMsgIn_none_iff.1 hu
      simp [findMsgInRooms_cons, hf, ih hrm2]

theorem findMsgInRooms_updMsgInRooms_ne {mid mid2 : Id} {f : Msg → Msg}
    {rooms rm : List (Id × List Msg)}
    (hid : ∀ m, (f m).message_id = m.message_id) (hne : mid2 ≠ mid)
    (h : updMsgInRooms mid f rooms = some rm) :
    findMsgInRooms mid2 rm = findMsgInRooms mid2 rooms := by
  induction rooms generalizing rm with
  | nil => simp at h
  | cons hd t ih =>
    obtain ⟨rid, l⟩ := hd
    simp only [updMsgInRooms_cons] at h
    cases hu : updMsgIn mid f l with
    | some l2 =>
      rw [hu] at h
      cases h
      have hfind := findMsgIn_updMsgIn_ne hid hne hu
      simp only [findMsgInRooms_cons, hfind]
    | none =>
      rw [hu] at h
      simp only [Option.map_eq_some'] at h
      obtain ⟨rm2, hrm2, hrm⟩ := h
      subst hrm
      simp only [findMsgInRooms_cons, ih hrm2]

theorem updMsgInRooms_comp {mid : Id} {f g : Msg → Msg}
    {rooms rm : List (Id × List Msg)}
    (hid : ∀ m, (f m).message_id = m.message_id)
    (h : updMsgInRooms mid f rooms = some rm) :
    updMsgInRooms mid g rm = updMsgInRooms mid (fun m => g (f m)) rooms := by
  induction rooms generalizing rm with
  | nil => simp at h
  | cons hd t ih =>
    obtain ⟨rid, l⟩ := hd
    simp only [updMsgInRooms_cons] at h
    cases hu : updMsgIn mid f l with
    | some l2 =>
      rw [hu] at h
      cases h
      have hcomp := updMsgIn_comp (g := g) hid hu
      simp only [updMsgInRooms_cons, hcomp]
      cases hgf : updMsgIn mid (fun m => g (f m)) l with
      | some l3 => rfl
      | none =>
        have hfl : updMsgIn mid f l = none :=
          updMsgIn_none_iff.2 (updMsgIn_none_iff.1 hgf)
        rw [hfl] at hu
        cases hu
    | none =>
      rw [hu] at h
      simp only [Option.map_eq_some'] at h
      obtain ⟨rm2, hrm2, hrm⟩ := h
      subst hrm
      have hf : findMsgIn mid l = none := updMsgIn_none_iff.1 hu
      have hgl : updMsgIn mid g l = none := updMsgIn_none_iff.2 hf
      have hgfl : updMsgIn mid (fun m => g (f m)) l = none := updMsgIn_none_iff.2 hf
      simp only [updMsgInRooms_cons, hgl, hgfl, ih hrm2]

theorem aget_updMsgInRooms {mid : Id} {f : Msg → Msg}
    {rooms rm : List (Id × List Msg)}
    (h : updMsgInRooms mid f rooms = some rm) (rid : Id) :
    aget rid rm = aget rid rooms ∨
    ∃ l l2, aget rid rooms = some l ∧ aget rid rm = some l2 ∧
      updMsgIn mid f l = some l2 := by
  induction rooms generalizing rm with
  | nil => simp at h
  | cons hd t ih =>
    obtain ⟨a, l⟩ := hd
    simp only [updMsgInRooms_cons] at h
    cases hu : updMsgIn mid f l with
    | some l2 =>
      rw [hu] at h
      cases h
      by_cases ha : a = rid
      · subst ha
        right
        exact ⟨l, l2, by simp [aget], by simp [aget], hu⟩
      · left
        simp [aget, ha]
    | none =>
      rw [hu] at h
      simp only [Option.map_eq_some'] at h
      obtain ⟨rm2, hrm2, hrm⟩ := h
      subst hrm
      by_cases ha : a = rid
      · subst ha
        left
        simp [aget]
      · rcases ih hrm2 with h1 | ⟨l', l2', h1, h2, h3⟩
        · left
          simp [aget, ha, h1]
        · right
          exact ⟨l', l2', by simp [aget, ha, h1], by simp [aget, ha, h2], h3⟩

theorem findMsgIn_append_ne {mid : Id} {msg : Msg} (l : List Msg)
    (h : msg.message_id ≠ mid) :
    findMsgIn mid (l ++ [msg]) = findMsgIn mid l := by
  induction l with
  | nil => simp [findMsgIn, h]
  | cons m t ih =>
    by_cases hm : m.message_id = mid <;> simp [findMsgIn, hm, ih]

/-- Appending a message with a different id to one room's log (the post
step) does not change what a search for `mid` finds. -/
theorem findMsgInRooms_post_ne (mid rid : Id) (msg : Msg)
    (rooms : List (Id × List Msg)) (h : msg.message_id ≠ mid) :
    findMsgInRooms mid
      (aset rid (((aget rid rooms).getD []) ++ [msg]) rooms) =
      findMsgInRooms mid rooms := by
  induction rooms with
  | nil => simp [aset, aget, findMsgInRooms, findMsgIn, h]
  | cons hd t ih =>
    obtain ⟨a, l⟩ := hd
    by_cases ha : a = rid
    · subst ha
      simp [findMsgIn_append_ne l h]
    · simp only [aget_cons, if_neg ha, aset_cons, if_neg ha, findMsgInRooms_cons]
      cases hf : findMsgIn mid l <;> simp [hf, ih]

/-! ## C3 — cursor monotonicity -/

/-- C3 counterexample: the claim says that after `set_cursor(s,u,5)` then
`set_cursor(s,u,3)` the cursor reads `max 5 3 = 5`; the ack handler stores
`body.seq` with a plain `map.set`, so the cursor reads `3`. -/
theorem C3_counterexample :
    handleRoomCursor
      (handleRoomAck (handleRoomAck emptySt 1 7 5) 1 7 3) 1 7 = 3 ∧
    max 5 3 ≠ 3 := by
  constructor
  · rfl
  · decide

/-- C3 (amended): `set_cursor` overwrites unconditionally — after
`set_cursor(s,u,a); set_cursor(s,u,b)`, `get_cursor(s,u)` returns `b`
(the last written value, not `max(a,b)`), both for room acks and DM acks. -/
theorem C3_cursor_overwrite (st : St) (room_id caller peer a b : Nat) :
    handleRoomCursor
      (handleRoomAck (handleRoomAck st room_id caller a) room_id caller b)
      room_id caller = b ∧
    handleDmCursor
      (handleDmAck (handleDmAck st caller peer a) caller peer b)
      caller peer = b := by
  constructor
  · simp [handleRoomCursor, handleRoomAck, aget_aset_self]
  · by_cases hs : (aget (pairKey caller peer) st.dmPairs).isSome <;>
      simp [handleDmCursor, handleDmAck, ensureDmPair, hs, aget_aset_self]

/-! ## C6 — RTM ticket single use -/

/-- C6 counterexample: the claim's validity condition is
`!used ∧ now < expires_at`, but `DB.useTicket` of `server-bun` rejects only
when `Date.now() > expires_at`: at `now = expires_at` (here both `10`) the
consume still returns the user even though `now < expires_at` fails. -/
theorem C6_counterexample :
    (DB.useTicket [(3, { user_id := 4, expires_at := 10, used := false })]
        3 10).1 = some 4 ∧
    ¬ (10 < 10) := by
  constructor
  · rfl
  · decide

/-- C6 (amended): at most one consume of a ticket returns a user and every
subsequent consume returns none, in both implementations; a successful
validation marks the ticket used.  The validity condition is
`!used ∧ now < expires_at` in the `GET /rtm` handler of
`bun-server-implementation` (plus existence of the referenced user), but
`!used ∧ now ≤ expires_at` in `DB.useTicket` of `server-bun`. -/
theorem C6_ticket_single_use :
    (∀ st t now u st1, consumeTicket st t now = (some u, st1) →
       ∀ now2, (consumeTicket st1 t now2).1 = none) ∧
    (∀ st t now, (consumeTicket st t now).1.isSome ↔
       ∃ rec, aget t st.wsTickets = some rec ∧ rec.used = false ∧
         now < rec.expires_at ∧ rec.user_id ∈ st.users) ∧
    (∀ tks t now u tks1, DB.useTicket tks t now = (some u, tks1) →
       ∀ now2, (DB.useTicket tks1 t now2).1 = none) ∧
    (∀ tks t now, (DB.useTicket tks t now).1.isSome ↔
       ∃ rec, aget t tks = some rec ∧ rec.used = false ∧
         now ≤ rec.expires_at) := by
  refine ⟨?_, ?_, ?_, ?_⟩
  · intro st t now u st1 h now2
    unfold consumeTicket at h
    cases hg : aget t st.wsTickets with
    | none => simp [hg] at h
    | some rec =>
      simp only [hg] at h
      by_cases hu : rec.used
      · simp [hu] at h
      · by_cases hlt : now < rec.expires_at
        · by_cases hmem : rec.user_id ∈ st.users
          · simp [hu, hlt, hmem] at h
            obtain ⟨hu1, hst⟩ := h
            subst hst
            simp [consumeTicket, aget_aset_self]
          · simp [hu, hlt, hmem] at h
        · simp [hu, hlt] at h
  · intro st t now
    unfold consumeTicket
    cases hg : aget t st.wsTickets with
    | none => simp
    | some rec =>
      by_cases hu : rec.used <;> by_cases hlt : now < rec.expires_at <;>
        by_cases hmem : rec.user_id ∈ st.users <;>
        simp [hu, hlt, hmem]
  · intro tks t now u tks1 h now2
    unfold DB.useTicket at h
    cases hg : aget t tks with
    | none => simp [hg] at h
    | some rec =>
      simp only [hg] at h
      by_cases hcond : rec.used = true ∨ rec.expires_at < now
      · rw [if_pos (by simpa using hcond)] at h
        simp at h
      · rw [if_neg (by simpa using hcond)] at h
        simp only [Prod.mk.injEq] at h
        obtain ⟨hu1, htk⟩ := h
        subst htk
        simp [DB.useTicket, aget_aset_self]
  · intro tks t now
    unfold DB.useTicket
    cases hg : aget t tks with
    | none => simp
    | some rec =>
      by_cases hu : rec.used
      · simp [hu]
      · by_cases hle : now ≤ rec.expires_at
        · have hlt : ¬ rec.expires_at < now := Nat.not_lt.2 hle
          simp [hu, hlt, hle]
        · have hlt : rec.expires_at < now := Nat.lt_of_not_le hle
          simp [hu, hlt, hle]

/-- C6 witness: the fixture's pending ticket `3` (user 1, expiry 100) is
consumed once at time 50; the second consume at time 60 returns none. -/
theorem C6_ticket_single_use_witness :
    (consumeTicket ((consumeTicket stEx 3 50).2) 3 60).1 = none :=
  C6_ticket_single_use.1 stEx 3 50 1 (consumeTicket stEx 3 50).2 rfl 60

/-! ## C10 — reads require no authentication -/

/-- C10: `GET /rooms/{id}/messages` and
`GET /rooms/{id}/messages/backfill` never consult authentication: for every
room in the store the forward read succeeds, the backfill succeeds for every
room id, and the only error either handler can return is `not_found` —
never `unauthorized` or `forbidden`. -/
theorem C10_reads_no_auth :
    (∀ st rid fromSeq limitRaw, (aget rid st.rooms).isSome →
       exceptIsOk (handleGetRoomMessages st rid fromSeq limitRaw) = true) ∧
    (∀ st rid before limitRaw,
       exceptIsOk (handleRoomBackfill st rid before limitRaw) = true) ∧
    (∀ st rid fromSeq limitRaw e,
       handleGetRoomMessages st rid fromSeq limitRaw = .error e →
         e = .not_found) ∧
    (∀ st rid before limitRaw e,
       handleRoomBackfill st rid before limitRaw ≠ .error e) := by
  refine ⟨?_, ?_, ?_, ?_⟩
  · intro st rid fromSeq limitRaw h
    simp only [handleGetRoomMessages, Option.isNone_iff_eq_none]
    rw [if_neg (by simp [Option.isSome_iff_ne_none] at h; simpa using h)]
    rfl
  · intro st rid before limitRaw
    rfl
  · intro st rid fromSeq limitRaw e h
    unfold handleGetRoomMessages at h
    by_cases hn : (aget rid st.rooms).isNone
    · rw [if_pos hn] at h
      cases h
      rfl
    · rw [if_neg hn] at h
      cases h
  · intro st rid before limitRaw e h
    cases h

/-- C10 witness: in the fixture store, room 1 exists and the forward read
succeeds without any token. -/
theorem C10_reads_no_auth_witness :
    exceptIsOk (handleGetRoomMessages stEx 1 0 50) = true :=
  C10_reads_no_auth.1 stEx 1 0 50 rfl

/-! ## C1 — tombstone authorization -/

/-- C1 counterexample: caller 2 is not the author of message 5 (user 1
is) and holds no role at all in room 1, yet `DELETE /messages/5` succeeds
and tombstones the message instead of returning `forbidden`. -/
theorem C1_counterexample :
    msgEx.author_id = 1 ∧ (2 : Id) ≠ 1 ∧
    specPurgePermission stEx 1 2 = false ∧
    handleDeleteMessage stEx 5 9 = .ok stC1d := by
  refine ⟨rfl, by decide, rfl, rfl⟩

/-- C1 (amended): the `DELETE /messages/{id}` branch of
`bun-server-implementation` performs no authorization at all — for every
caller it tombstones any existing message and it never returns `forbidden`;
`DB.deleteMessage` of `server-bun` authorizes exactly the author (there is
no `purge_message` path for moderators/admins/owners). -/
theorem C1_tombstone_no_authorization :
    (∀ st mid now m, findMsgInRooms mid st.roomMessages = some m →
       ∃ st1, handleDeleteMessage st mid now = .ok st1 ∧
         findMsgInRooms mid st1.roomMessages =
           some { m with tombstone := true, ts := now }) ∧
    (∀ st mid now, handleDeleteMessage st mid now ≠ .error .forbidden) ∧
    (∀ (m : DB.Msg) caller now, DB.deleteMessage m caller now =
       if m.author = caller then .ok { m with tombstone := true, ts := now }
       else .error .forbidden) := by
  refine ⟨?_, ?_, ?_⟩
  · intro st mid now m hfind
    have hid : ∀ mm : Msg,
        ({ mm with tombstone := true, ts := now } : Msg).message_id =
          mm.message_id := fun mm => rfl
    have hsome : (updMsgInRooms mid
        (fun mm => { mm with tombstone := true, ts := now })
        st.roomMessages).isSome := by
      rw [updMsgInRooms_isSome, hfind]
      rfl
    obtain ⟨rm, hrm⟩ := Option.isSome_iff_exists.1 hsome
    refine ⟨{ st with roomMessages := rm }, ?_, ?_⟩
    · unfold handleDeleteMessage
      rw [hrm]
    · rw [show ({ st with roomMessages := rm } : St).roomMessages = rm from rfl,
        findMsgInRooms_updMsgInRooms_self hid hrm, hfind]
      rfl
  · intro st mid now h
    unfold handleDeleteMessage at h
    cases hu : updMsgInRooms mid
        (fun m => { m with tombstone := true, ts := now }) st.roomMessages with
    | some rm => rw [hu] at h; simp at h
    | none => rw [hu] at h; simp at h
  · intro m caller now
    unfold DB.deleteMessage
    by_cases h : m.author = caller <;> simp [h]

/-- C1 witness: deleting the fixture message succeeds (for a request that
carries no identity at all) and marks it tombstoned. -/
theorem C1_tombstone_no_authorization_witness :
    ∃ st1, handleDeleteMessage stEx 5 9 = .ok st1 ∧
      findMsgInRooms 5 st1.roomMessages =
        some { msgEx with tombstone := true, ts := 9 } :=
  C1_tombstone_no_authorization.1 stEx 5 9 msgEx rfl

/-! ## C2 — reaction idempotence -/

theorem aset_aset_self [DecidableEq α] (k : α) (v : β) (l : List (α × β)) :
    aset k v (aset k v l) = aset k v l :=
  aset_self (aget_aset_self k v l)

theorem addReact_none {emoji : String} {u : Id} {r : List (String × List Id)}
    (h : aget emoji r = none) : addReact emoji u r = aset emoji [u] r := by
  unfold addReact
  rw [h]

theorem addReact_some {emoji : String} {u : Id} {r : List (String × List Id)}
    {s : List Id} (h : aget emoji r = some s) :
    addReact emoji u r = aset emoji (if u ∈ s then s else s ++ [u]) r := by
  unfold addReact
  rw [h]

theorem addReact_idem (emoji : String) (u : Id) (r : List (String × List Id)) :
    addReact emoji u (addReact emoji u r) = addReact emoji u r := by
  cases hg : aget emoji r with
  | none =>
    rw [addReact_none hg, addReact_some (aget_aset_self emoji [u] r),
      if_pos (by simp), aset_aset_self]
  | some s =>
    rw [addReact_some hg]
    by_cases hu : u ∈ s
    · rw [if_pos hu, addReact_some (aget_aset_self emoji s r), if_pos hu,
        aset_aset_self]
    · rw [if_neg hu, addReact_some (aget_aset_self emoji (s ++ [u]) r),
        if_pos (by simp), aset_aset_self]

theorem count_addReact (emoji : String) (u : Id) (r : List (String × List Id))
    (hnd : ∀ s, aget emoji r = some s → s.Nodup) :
    ((aget emoji (addReact emoji u r)).getD []).count u = 1 := by
  cases hg : aget emoji r with
  | none =>
    rw [addReact_none hg, aget_aset_self]
    simp
  | some s =>
    rw [addReact_some hg, aget_aset_self]
    by_cases hu : u ∈ s
    · rw [if_pos hu]
      exact List.count_eq_one_of_mem (hnd s hg) hu
    · rw [if_neg hu]
      simp [List.count_append, List.count_eq_zero_of_not_mem hu]

/-- C2 counterexample: in `server-bun`, two consecutive
`react(m, u, "x", add)` calls on a message with no reactions leave a count
of `2` for `"x"` — the same user contributed twice, not once. -/
theorem C2_counterexample :
    (DB.react (DB.react
        ({ author := 1, seq := 1, ts := 0, text := "m", tombstone := false,
           reactions := [], edited_at := none } : DB.Msg) "x" true) "x"
      true).reactions = [("x", 2)] ∧ (2 : Nat) ≠ 1 := by
  refine ⟨rfl, by decide⟩

/-- C2 (amended): in `bun-server-implementation`, reactions are kept as a
per-message `emoji → set<user_id>`: adding is idempotent at the state level
and two consecutive adds by one user leave that user counted exactly once.
In `server-bun`, `DB.react` keeps only `{emoji, count}` pairs with no user
identity: two consecutive adds of a fresh emoji leave count `2`. -/
theorem C2_reaction_idempotence :
    (∀ st mid caller emoji st1,
       handleReactAdd st mid caller emoji = .ok st1 →
       handleReactAdd st1 mid caller emoji = .ok st1) ∧
    (∀ st mid caller emoji st1 m,
       handleReactAdd st mid caller emoji = .ok st1 →
       findMsgInRooms mid st.roomMessages = some m →
       (∀ s, aget emoji m.reacts = some s → s.Nodup) →
       ∃ m1, findMsgInRooms mid st1.roomMessages = some m1 ∧
         userReactCount m1 emoji caller = 1) ∧
    (∀ (m : DB.Msg) emoji, aget emoji m.reactions = none →
       aget emoji ((DB.react (DB.react m emoji true) emoji true).reactions) =
         some 2) := by
  have hid : ∀ (emoji : String) (caller : Id) (mm : Msg),
      ({ mm with reacts := addReact emoji caller mm.reacts } : Msg).message_id =
        mm.message_id := fun _ _ _ => rfl
  refine ⟨?_, ?_, ?_⟩
  · intro st mid caller emoji st1 h
    unfold handleReactAdd at h
    cases hfind : findMsgInRooms mid st.roomMessages with
    | none => rw [hfind] at h; simp at h
    | some m =>
      rw [hfind] at h
      by_cases he : emoji = ""
      · rw [if_pos he] at h; simp at h
      · rw [if_neg he] at h
        have hsome : (updMsgInRooms mid
            (fun mm => { mm with reacts := addReact emoji caller mm.reacts })
            st.roomMessages).isSome := by
          rw [updMsgInRooms_isSome, hfind]
          rfl
        obtain ⟨rm, hrm⟩ := Option.isSome_iff_exists.1 hsome
        rw [hrm] at h
        simp only [Option.getD_some, Except.ok.injEq] at h
        subst h
        have hfind2 : findMsgInRooms mid rm =
            some { m with reacts := addReact emoji caller m.reacts } := by
          rw [findMsgInRooms_updMsgInRooms_self (hid emoji caller) hrm, hfind]
          rfl
        unfold handleReactAdd
        rw [show ({ st with roomMessages := rm } : St).roomMessages = rm from rfl,
          hfind2, if_neg he]
        have hcomp := updMsgInRooms_comp
          (g := fun mm => { mm with reacts := addReact emoji caller mm.reacts })
          (hid emoji caller) hrm
        have hfix : (fun mm : Msg =>
            ({ ({ mm with reacts := addReact emoji caller mm.reacts } : Msg) with
               reacts := addReact emoji caller
                 ({ mm with reacts := addReact emoji caller mm.reacts } : Msg).reacts } : Msg)) =
            fun mm : Msg => { mm with reacts := addReact emoji caller mm.reacts } := by
          funext mm
          simp [addReact_idem]
        rw [hfix] at hcomp
        rw [hcomp, hrm]
        rfl
  · intro st mid caller emoji st1 m h hfind hnd
    unfold handleReactAdd at h
    rw [hfind] at h
    by_cases he : emoji = ""
    · rw [if_pos he] at h; simp at h
    · rw [if_neg he] at h
      have hsome : (updMsgInRooms mid
          (fun mm => { mm with reacts := addReact emoji caller mm.reacts })
          st.roomMessages).isSome := by
        rw [updMsgInRooms_isSome, hfind]
        rfl
      obtain ⟨rm, hrm⟩ := Option.isSome_iff_exists.1 hsome
      rw [hrm] at h
      simp only [Option.getD_some, Except.ok.injEq] at h
      subst h
      refine ⟨{ m with reacts := addReact emoji caller m.reacts }, ?_, ?_⟩
      · rw [show ({ st with roomMessages := rm } : St).roomMessages = rm from rfl,
          findMsgInRooms_updMsgInRooms_self (hid emoji caller) hrm, hfind]
        rfl
      · exact count_addReact emoji caller m.reacts hnd
  · intro m emoji hg
    simp only [DB.react, hg, aget_aset_self]
    norm_num

/-- C2 witness: adding the same reaction twice on the fixture message is a
no-op the second time. -/
theorem C2_reaction_idempotence_witness :
    handleReactAdd stC2 5 2 "x" = .ok stC2 :=
  C2_reaction_idempotence.1 stEx 5 2 "x" stC2 rfl

/-! ## C8 — message length validation -/

/-- C8 counterexample: the advertised limit is 4000 bytes, but a 4001-byte
text is accepted with `201` and appended to the stream. -/
theorem C8_counterexample :
    4000 < longText.length ∧
    handlePostRoomMessage stFresh 1 1 longText 20 7 = .ok (stC8r, msgC8) := by
  constructor
  · have h : longText.length = 4001 := by
      rw [longText]
      show (List.replicate 4001 'a').length = 4001
      exact List.length_replicate 4001 'a'
    rw [h]
    norm_num
  · rfl

/-- C8 (amended): the post handler validates only that `text` is present
and non-empty; it never compares the length with `max_message_bytes`
(4000, as advertised by `/meta/capabilities`), so any non-empty text —
of any length — is accepted and appended to the stream. -/
theorem C8_no_length_validation :
    capLimits.max_message_bytes = 4000 ∧
    (∀ st rid author mid now, (aget rid st.rooms).isSome →
       handlePostRoomMessage st rid author "" mid now = .error .bad_request) ∧
    (∀ st rid author text mid now,
       (aget rid st.rooms).isSome → text ≠ "" →
       ∃ st1 msg, handlePostRoomMessage st rid author text mid now =
           .ok (st1, msg) ∧
         msg.text = text ∧
         (aget rid st1.roomMessages).getD [] =
           ((aget rid st.roomMessages).getD []) ++ [msg]) := by
  refine ⟨rfl, ?_, ?_⟩
  · intro st rid author mid now h
    have hne : ¬ (aget rid st.rooms).isNone = true := by
      cases hg : aget rid st.rooms
      · rw [hg] at h; simp at h
      · simp
    unfold handlePostRoomMessage
    rw [if_neg hne, if_pos rfl]
  · intro st rid author text mid now h ht
    have hne : ¬ (aget rid st.rooms).isNone = true := by
      cases hg : aget rid st.rooms
      · rw [hg] at h; simp at h
      · simp
    unfold handlePostRoomMessage
    rw [if_neg hne, if_neg ht]
    refine ⟨_, _, rfl, rfl, ?_⟩
    rw [aget_aset_self]
    rfl

/-- C8 witness: a short message is likewise accepted and appended in the
fixture store. -/
theorem C8_no_length_validation_witness :
    ∃ st1 msg, handlePostRoomMessage stFresh 1 1 "hi" 21 3 = .ok (st1, msg) ∧
      msg.text = "hi" ∧
      (aget 1 st1.roomMessages).getD [] =
        ((aget 1 stFresh.roomMessages).getD []) ++ [msg] :=
  C8_no_length_validation.2.2 stFresh 1 1 "hi" 21 3 rfl (by decide)

/-! ## C9 — member count invariant -/

theorem memberInv_empty : memberInv emptySt := by
  intro rid r hr
  simp [emptySt, aget] at hr

theorem memberInv_createRoom_ok {st st1 : St} {room : Room} {o : Id}
    {n : String} {v : Visibility} {tp : String} {rid : Id} {now : Ts}
    (h : memberInv st)
    (hok : createRoom st o n v tp rid now = .ok (st1, room)) :
    memberInv st1 := by
  unfold createRoom at hok
  by_cases hc : (aget (normalizeRoomName n) st.roomByName).isSome = true
  · rw [if_pos hc] at hok
    cases hok
  · rw [if_neg hc] at hok
    simp only [Except.ok.injEq, Prod.mk.injEq] at hok
    obtain ⟨hst, hroom⟩ := hok
    subst hst
    intro rid2 r2 hr2
    by_cases he : rid = rid2
    · subst he
      rw [aget_aset_self] at hr2
      cases hr2
      rw [aget_aset_self]
      rfl
    · rw [aget_aset_ne he] at hr2
      rw [aget_aset_ne he]
      exact h rid2 r2 hr2

theorem memberInv_addMember {st : St} (h : memberInv st) (rid uid : Id)
    (role : Role) : memberInv (addMember st rid uid role) := by
  unfold addMember
  by_cases hm : (aget uid ((aget rid st.roomMembers).getD [])).isSome = true
  · rw [if_pos hm]
    exact h
  · rw [if_neg hm]
    cases hro : aget rid st.rooms with
    | some r =>
      intro rid2 r2 hr2
      simp only [hro] at hr2 ⊢
      by_cases he : rid = rid2
      · subst he
        rw [aget_aset_self] at hr2
        cases hr2
        rw [aget_aset_self]
        have hh := h rid r hro
        simp [length_aset, hm, hh]
      · rw [aget_aset_ne he] at hr2
        rw [aget_aset_ne he]
        exact h rid2 r2 hr2
    | none =>
      intro rid2 r2 hr2
      simp only [hro] at hr2 ⊢
      by_cases he : rid = rid2
      · subst he
        rw [hro] at hr2
        cases hr2
      · rw [aget_aset_ne he]
        exact h rid2 r2 hr2

theorem memberInv_removeMember {st : St} (h : memberInv st) (rid uid : Id) :
    memberInv (removeMember st rid uid) := by
  unfold removeMember
  split
  · exact h
  · next mm hmm =>
    by_cases hm : (aget uid mm).isSome = true
    · rw [if_pos hm]
      cases hro : aget rid st.rooms with
      | some r =>
        have hcount : r.members_count = mm.length := by
          have hh := h rid r hro
          rw [hmm] at hh
          simpa using hh
        have hpos : 0 < mm.length := by
          cases mm with
          | nil => simp [aget] at hm
          | cons a t => simp
        have hgt : r.members_count > 0 := by omega
        intro rid2 r2 hr2
        simp only [hro, if_pos hgt] at hr2 ⊢
        by_cases he : rid = rid2
        · subst he
          rw [aget_aset_self] at hr2
          cases hr2
          rw [aget_aset_self]
          dsimp only [Option.getD_some]
          rw [length_adel_of_isSome hm]
          omega
        · rw [aget_aset_ne he] at hr2
          rw [aget_aset_ne he]
          exact h rid2 r2 hr2
      | none =>
        intro rid2 r2 hr2
        simp only [hro] at hr2 ⊢
        by_cases he : rid = rid2
        · subst he
          rw [hro] at hr2
          cases hr2
        · rw [aget_aset_ne he]
          exact h rid2 r2 hr2
    · rw [if_neg hm]
      exact h

theorem memberInv_applyRoomOp {st : St} (h : memberInv st) (op : RoomOp) :
    memberInv (applyRoomOp st op) := by
  cases op with
  | create o n v tp rid now =>
    simp only [applyRoomOp]
    cases hok : createRoom st o n v tp rid now with
    | ok p =>
      obtain ⟨st1, room⟩ := p
      exact memberInv_createRoom_ok h hok
    | error e => exact h
  | add rid uid role => exact memberInv_addMember h rid uid role
  | remove rid uid => exact memberInv_removeMember h rid uid

theorem memberInv_foldl (ops : List RoomOp) :
    ∀ st, memberInv st → memberInv (ops.foldl applyRoomOp st) := by
  induction ops with
  | nil => intro st h; exact h
  | cons op rest ih =>
    intro st h
    exact ih _ (memberInv_applyRoomOp h op)

theorem removeMember_present {st : St} {rid uid : Id} {r : Room}
    {mm : List (Id × Role)} (hInv : memberInv st)
    (hro : aget rid st.rooms = some r)
    (hmm : aget rid st.roomMembers = some mm)
    (hm : (aget uid mm).isSome = true) :
    aget rid (removeMember st rid uid).rooms =
      some { r with members_count := r.members_count - 1 } ∧
    1 ≤ r.members_count := by
  have hcount : r.members_count = mm.length := by
    have hh := hInv rid r hro
    rw [hmm] at hh
    simpa using hh
  have hpos : 0 < mm.length := by
    cases mm with
    | nil => simp [aget] at hm
    | cons a t => simp
  have hgt : r.members_count > 0 := by omega
  refine ⟨?_, by omega⟩
  simp only [removeMember, hmm, hm, hro, hgt, if_true, aget_aset_self]

theorem removeMember_absent {st : St} {rid uid : Id}
    (hm : (aget uid ((aget rid st.roomMembers).getD [])).isSome = false) :
    removeMember st rid uid = st := by
  unfold removeMember
  split
  · rfl
  · next mm hmm =>
    rw [hmm] at hm
    simp only [Option.getD_some] at hm
    rw [if_neg (by simp [hm])]

/-- C9: after every sequence of `create_room` / `add_member` /
`remove_member` operations, each stored room's `counts.members` equals the
cardinality of its member map; re-adding an existing member is a complete
no-op (the stored role and the count are untouched); `remove_member`
decrements the count when the user was present (which forces the count to
have been at least 1) and is a complete no-op otherwise. -/
theorem C9_member_count :
    (∀ ops, memberInv (runRoomOps ops)) ∧
    (∀ st rid uid role,
       (aget uid ((aget rid st.roomMembers).getD [])).isSome = true →
       addMember st rid uid role = st) ∧
    (∀ st rid uid r mm, memberInv st → aget rid st.rooms = some r →
       aget rid st.roomMembers = some mm →
       (aget uid mm).isSome = true →
       aget rid (removeMember st rid uid).rooms =
         some { r with members_count := r.members_count - 1 } ∧
       1 ≤ r.members_count) ∧
    (∀ st rid uid,
       (aget uid ((aget rid st.roomMembers).getD [])).isSome = false →
       removeMember st rid uid = st) := by
  refine ⟨?_, ?_, ?_, ?_⟩
  · intro ops
    exact memberInv_foldl ops emptySt memberInv_empty
  · intro st rid uid role h
    unfold addMember
    rw [if_pos h]
  · intro st rid uid r mm hInv hro hmm hm
    exact removeMember_present hInv hro hmm hm
  · intro st rid uid h
    exact removeMember_absent h

/-- C9 witness: re-adding the owner of the fixture room is a no-op. -/
theorem C9_member_count_witness :
    addMember stEx 1 1 .member = stEx :=
  C9_member_count.2.1 stEx 1 1 .member rfl

/-! ## C4 — read round-trip -/

/-- Posting a batch to a stream whose log carries `seq = 1..len` and whose
next counter is `len + 1` extends the log in order, one seq per post. -/
theorem postList_spec (rid : Id) (items : List PostIn) :
    ∀ (st : St) (r : Room) (l : List Msg),
    aget rid st.rooms = some r →
    aget rid st.roomMessages = some l →
    aget rid st.roomNextSeq = some (l.length + 1) →
    l.map Msg.seq = List.range' 1 l.length →
    (∀ it ∈ items, it.text ≠ "") →
    aget rid (postList st rid items).rooms = some r ∧
    ∃ l2, aget rid (postList st rid items).roomMessages = some l2 ∧
      aget rid (postList st rid items).roomNextSeq = some (l2.length + 1) ∧
      l2.length = l.length + items.length ∧
      l2.map Msg.seq = List.range' 1 l2.length ∧
      l2.map Msg.text = l.map Msg.text ++ items.map PostIn.text := by
  induction items with
  | nil =>
    intro st r l hr hl hs hseq ht
    exact ⟨hr, l, hl, hs, by simp, hseq, by simp⟩
  | cons it rest ih =>
    intro st r l hr hl hs hseq ht
    have hne : it.text ≠ "" := ht it (List.mem_cons_self it rest)
    have hroomsne : ¬ (aget rid st.rooms).isNone = true := by
      rw [hr]
      simp
    have hstep : postStep rid st it =
        { st with
            roomNextSeq := aset rid (l.length + 1 + 1) st.roomNextSeq,
            roomMessages :=
              aset rid (l ++ [mkPostMsg it (l.length + 1)]) st.roomMessages } := by
      unfold postStep handlePostRoomMessage
      rw [if_neg hroomsne, if_neg hne, hs, hl]
      rfl
    have hrun : postList st rid (it :: rest) =
        postList (postStep rid st it) rid rest := rfl
    rw [hrun, hstep]
    have hr1 : aget rid
        ({ st with
            roomNextSeq := aset rid (l.length + 1 + 1) st.roomNextSeq,
            roomMessages :=
              aset rid (l ++ [mkPostMsg it (l.length + 1)]) st.roomMessages } : St).rooms =
        some r := hr
    have hl1 : aget rid
        ({ st with
            roomNextSeq := aset rid (l.length + 1 + 1) st.roomNextSeq,
            roomMessages :=
              aset rid (l ++ [mkPostMsg it (l.length + 1)]) st.roomMessages } : St).roomMessages =
        some (l ++ [mkPostMsg it (l.length + 1)]) := aget_aset_self _ _ _
    have hs1 : aget rid
        ({ st with
            roomNextSeq := aset rid (l.length + 1 + 1) st.roomNextSeq,
            roomMessages :=
              aset rid (l ++ [mkPostMsg it (l.length + 1)]) st.roomMessages } : St).roomNextSeq =
        some ((l ++ [mkPostMsg it (l.length + 1)]).length + 1) := by
      rw [show ((l ++ [mkPostMsg it (l.length + 1)]).length + 1) = l.length + 1 + 1 by simp]
      exact aget_aset_self _ _ _
    have hseq1 : (l ++ [mkPostMsg it (l.length + 1)]).map Msg.seq =
        List.range' 1 (l ++ [mkPostMsg it (l.length + 1)]).length := by
      rw [List.map_append, hseq]
      simp [mkPostMsg, List.range'_concat, Nat.add_comm]
    have ht1 : ∀ it2 ∈ rest, it2.text ≠ "" :=
      fun it2 h2 => ht it2 (List.mem_cons_of_mem it h2)
    obtain ⟨hr2, l2, hl2, hs2, hlen2, hseq2, htext2⟩ :=
      ih _ r (l ++ [mkPostMsg it (l.length + 1)]) hr1 hl1 hs1 hseq1 ht1
    refine ⟨hr2, l2, hl2, hs2, by simp at hlen2 ⊢; omega, hseq2, ?_⟩
    rw [htext2]
    simp [mkPostMsg]

set_option maxRecDepth 40000 in
/-- C4 counterexample: after posting 201 messages to a fresh stream,
`forward_read(stream, 1, 201)` returns only 200 of them — the handler
clamps `limit` to `max(1, min(200, limit))`. -/
theorem C4_counterexample :
    itemsC4.length = 201 ∧
    (match handleGetRoomMessages (postList stFresh 1 itemsC4) 1 1 201 with
     | .ok p => p.1.length
     | .error _ => 0) = 200 ∧ (200 : Nat) ≠ 201 := by
  refine ⟨rfl, rfl, by decide⟩

/-- C4 (amended): for `N ≤ 200` (the handler clamps `limit` to at most
200), posting `N` messages to a fresh stream and then calling
`forward_read(stream, 1, N)` returns exactly those `N` messages — the
whole stored log — in ascending order with `seq = 1..N` (gap-free,
strictly increasing, starting at 1), and `next_seq = N + 1` (which is
`last.seq + 1` for a non-empty slice and the stream's `next_seq` for an
empty one). For `N > 200` only the first 200 are returned. -/
theorem C4_read_round_trip (st : St) (rid : Id) (r : Room)
    (items : List PostIn)
    (hr : aget rid st.rooms = some r)
    (hl : aget rid st.roomMessages = some [])
    (hs : aget rid st.roomNextSeq = some 1)
    (ht : ∀ it ∈ items, it.text ≠ "")
    (hn : items.length ≤ 200) :
    ∃ msgs, handleGetRoomMessages (postList st rid items) rid 1 items.length =
        .ok (msgs, items.length + 1) ∧
      aget rid (postList st rid items).roomMessages = some msgs ∧
      msgs.map Msg.seq = List.range' 1 items.length ∧
      msgs.map Msg.text = items.map PostIn.text := by
  obtain ⟨hr2, l2, hl2, hs2, hlen, hseq, htext⟩ :=
    postList_spec rid items st r [] hr hl (by simpa using hs) (by simp) ht
  simp only [List.length_nil, Nat.zero_add] at hlen
  simp only [List.map_nil, List.nil_append] at htext
  have hfilter : l2.filter (fun m => decide (1 ≤ m.seq)) = l2 := by
    rw [List.filter_eq_self]
    intro m hm
    have hmem : m.seq ∈ l2.map Msg.seq := List.mem_map_of_mem Msg.seq hm
    rw [hseq] at hmem
    obtain ⟨i, hi, he⟩ := List.mem_range'.1 hmem
    simp only [decide_eq_true_eq]
    omega
  refine ⟨l2, ?_, hl2, by rw [hseq, hlen], htext⟩
  simp only [handleGetRoomMessages, hr2, hl2, Option.isNone_some,
    Bool.false_eq_true, if_false, Option.getD_some, hfilter]
  cases hN : items.length with
  | zero =>
    have hl20 : l2 = [] := List.length_eq_zero.1 (by omega)
    subst hl20
    simp only [List.take_nil, List.getLast?_nil, hs2]
    simp
  | succ k =>
    have hlen2 : l2.length = k + 1 := by omega
    have hk : k + 1 ≤ 200 := by omega
    have hclamp : (1 ⊔ 200 ⊓ (k + 1)) = k + 1 := by
      rw [inf_eq_min, sup_eq_max, Nat.min_eq_right hk]
      exact Nat.max_eq_right (by omega)
    rw [hclamp, ← hlen2, List.take_length]
    have hlast : l2.getLast?.map Msg.seq = some (k + 1) := by
      rw [← List.getLast?_map, hseq, hlen2, List.range'_concat,
        List.getLast?_concat]
      simp only [Option.some.injEq]
      omega
    cases hgl : l2.getLast? with
    | none =>
      rw [hgl] at hlast
      simp at hlast
    | some mlast =>
      rw [hgl] at hlast
      simp only [Option.map_some', Option.some.injEq] at hlast
      simp only [hlast, hlen2]

/-- C4 witness: posting two messages to the fresh fixture stream and
reading from seq 1 with limit 2 returns both, in order, with `next_seq`
3. -/
theorem C4_read_round_trip_witness :
    ∃ msgs, handleGetRoomMessages (postList stFresh 1 itemsW) 1 1
        itemsW.length = .ok (msgs, itemsW.length + 1) ∧
      aget 1 (postList stFresh 1 itemsW).roomMessages = some msgs ∧
      msgs.map Msg.seq = List.range' 1 itemsW.length ∧
      msgs.map Msg.text = itemsW.map PostIn.text :=
  C4_read_round_trip stFresh 1 roomEx itemsW rfl rfl rfl (by decide) (by decide)

/-! ## C7 — tombstone permanence -/

/-- Updating some message (by any of the modelled per-message updates that
keep ids and never clear `tombstone`) preserves "message `mid` reads as
tombstoned". -/
theorem tombstone_preserved_upd {mid mid2 : Id} {f : Msg → Msg}
    {rooms rm : List (Id × List Msg)}
    (hupd : updMsgInRooms mid2 f rooms = some rm)
    (hid : ∀ m, (f m).message_id = m.message_id)
    (htb : ∀ m, m.tombstone = true → (f m).tombstone = true)
    (h : (findMsgInRooms mid rooms).map Msg.tombstone = some true) :
    (findMsgInRooms mid rm).map Msg.tombstone = some true := by
  by_cases he : mid = mid2
  · subst he
    rw [findMsgInRooms_updMsgInRooms_self hid hupd]
    cases hf : findMsgInRooms mid rooms with
    | none =>
      rw [hf] at h
      simp at h
    | some m =>
      rw [hf] at h
      simp only [Option.map_some', Option.some.injEq] at h
      simp [htb m h]
  · rw [findMsgInRooms_updMsgInRooms_ne hid he hupd]
    exact h

/-- One protocol operation (post of a fresh id, edit, react, delete) never
clears a tombstone. -/
theorem tombstone_perm_applySOp {st : St} {mid : Id} (op : SOp) (now : Ts)
    (hnp : ∀ rid a m t, op = SOp.post rid a m t → m ≠ mid)
    (h : (findMsgInRooms mid st.roomMessages).map Msg.tombstone = some true) :
    (findMsgInRooms mid (applySOp st (op, now)).roomMessages).map
      Msg.tombstone = some true := by
  cases op with
  | post rid a m t =>
    have hm : m ≠ mid := hnp rid a m t rfl
    simp only [applySOp]
    unfold handlePostRoomMessage
    by_cases h1 : (aget rid st.rooms).isNone = true
    · rw [if_pos h1]
      exact h
    · rw [if_neg h1]
      by_cases h2 : t = ""
      · rw [if_pos h2]
        exact h
      · rw [if_neg h2]
        exact (findMsgInRooms_post_ne mid rid
          (mkPostMsg { author := a, mid := m, text := t, now := now }
            (orOne (aget rid st.roomNextSeq))) st.roomMessages hm) ▸ h
  | edit m2 c t =>
    simp only [applySOp]
    split
    · next s heq =>
      unfold handleEditMessage at heq
      cases hf : findMsgInRooms m2 st.roomMessages with
      | none =>
        simp only [hf] at heq
        simp at heq
      | some mm =>
        simp only [hf] at heq
        by_cases ha : mm.author_id ≠ c
        · rw [if_pos ha] at heq
          simp at heq
        · rw [if_neg ha] at heq
          have hsome : (updMsgInRooms m2
              (fun x => { x with text := t.getD x.text, edited_at := some now })
              st.roomMessages).isSome := by
            rw [updMsgInRooms_isSome, hf]
            rfl
          obtain ⟨rm, hrm⟩ := Option.isSome_iff_exists.1 hsome
          rw [hrm] at heq
          simp only [Option.getD_some, Except.ok.injEq] at heq
          subst heq
          exact tombstone_preserved_upd hrm (fun x => rfl) (fun x hx => hx) h
    · next e heq => exact h
  | reactAdd m2 c e =>
    simp only [applySOp]
    split
    · next s heq =>
      unfold handleReactAdd at heq
      cases hf : findMsgInRooms m2 st.roomMessages with
      | none =>
        simp only [hf] at heq
        simp at heq
      | some mm =>
        simp only [hf] at heq
        by_cases he2 : e = ""
        · rw [if_pos he2] at heq
          simp at heq
        · rw [if_neg he2] at heq
          have hsome : (updMsgInRooms m2
              (fun x => { x with reacts := addReact e c x.reacts })
              st.roomMessages).isSome := by
            rw [updMsgInRooms_isSome, hf]
            rfl
          obtain ⟨rm, hrm⟩ := Option.isSome_iff_exists.1 hsome
          rw [hrm] at heq
          simp only [Option.getD_some, Except.ok.injEq] at heq
          subst heq
          exact tombstone_preserved_upd hrm (fun x => rfl) (fun x hx => hx) h
    · next e2 heq => exact h
  | del m2 =>
    simp only [applySOp]
    split
    · next s heq =>
      unfold handleDeleteMessage at heq
      cases hu : updMsgInRooms m2
          (fun x => { x with tombstone := true, ts := now })
          st.roomMessages with
      | none =>
        simp only [hu] at heq
        simp at heq
      | some rm =>
        simp only [hu, Except.ok.injEq] at heq
        subst heq
        exact tombstone_preserved_upd hu (fun x => rfl) (fun x hx => rfl) h
    · next e heq => exact h

theorem tombstone_perm_run {mid : Id} (tr : List (SOp × Ts)) :
    ∀ st : St,
    (∀ p ∈ tr, ∀ rid a m t, p.1 = SOp.post rid a m t → m ≠ mid) →
    (findMsgInRooms mid st.roomMessages).map Msg.tombstone = some true →
    (findMsgInRooms mid (runSOps st tr).roomMessages).map Msg.tombstone =
      some true := by
  induction tr with
  | nil =>
    intro st hnp hh
    exact hh
  | cons p rest ih =>
    intro st hnp hh
    obtain ⟨op, now⟩ := p
    exact ih _ (fun q hq => hnp q (List.mem_cons_of_mem _ hq))
      (tombstone_perm_applySOp op now
        (fun rid a m t hop => hnp (op, now) (List.mem_cons_self _ _) rid a m t hop)
        hh)

/-- C7 counterexample: after `delete(m)`, a forward read returns the
message with `tombstone = true` but with its original text `"secret"`
(external reads do return the text of a tombstoned message), and a
subsequent edit by the author succeeds instead of returning `forbidden`. -/
theorem C7_counterexample :
    handleGetRoomMessages stC1d 1 0 50 =
      .ok ([{ msgEx with tombstone := true, ts := 9 }], 2) ∧
    ({ msgEx with tombstone := true, ts := 9 } : Msg).text = "secret" ∧
    exceptIsOk (handleEditMessage stC1d 5 1 (some "x") 10) = true := by
  refine ⟨rfl, rfl, rfl⟩

/-- C7 (amended): after `delete(m)` the message reads back with
`tombstone = true` and its original text retained (the store keeps the
text and reads return it verbatim); the tombstone flag survives every
subsequent post (of a fresh message id), edit, react and delete; and a
subsequent edit of `m` returns `forbidden` only for non-authors — the
author's edit succeeds. -/
theorem C7_tombstone_retention :
    (∀ st mid now st1 m, handleDeleteMessage st mid now = .ok st1 →
       findMsgInRooms mid st.roomMessages = some m →
       findMsgInRooms mid st1.roomMessages =
         some { m with tombstone := true, ts := now }) ∧
    (∀ (st : St) (mid : Id) (tr : List (SOp × Ts)),
       (∀ p ∈ tr, ∀ rid a m2 t, p.1 = SOp.post rid a m2 t → m2 ≠ mid) →
       (findMsgInRooms mid st.roomMessages).map Msg.tombstone = some true →
       (findMsgInRooms mid (runSOps st tr).roomMessages).map Msg.tombstone =
         some true) ∧
    (∀ st mid caller t now m, findMsgInRooms mid st.roomMessages = some m →
       m.author_id = caller →
       exceptIsOk (handleEditMessage st mid caller t now) = true) := by
  refine ⟨?_, ?_, ?_⟩
  · intro st mid now st1 m hdel hfind
    have hid : ∀ x : Msg,
        (({ x with tombstone := true, ts := now } : Msg)).message_id =
          x.message_id := fun x => rfl
    unfold handleDeleteMessage at hdel
    cases hu : updMsgInRooms mid
        (fun x => { x with tombstone := true, ts := now })
        st.roomMessages with
    | none =>
      simp only [hu] at hdel
      simp at hdel
    | some rm =>
      simp only [hu, Except.ok.injEq] at hdel
      subst hdel
      rw [show ({ st with roomMessages := rm } : St).roomMessages = rm from rfl,
        findMsgInRooms_updMsgInRooms_self hid hu, hfind]
      rfl
  · intro st mid tr hnp hh
    exact tombstone_perm_run tr st hnp hh
  · intro st mid caller t now m hfind hauth
    unfold handleEditMessage
    simp [hfind, hauth, exceptIsOk]

/-- C7 witness: deleting the fixture message yields a read of the message
with tombstone set and text retained. -/
theorem C7_tombstone_retention_witness :
    findMsgInRooms 5 stC1d.roomMessages =
      some { msgEx with tombstone := true, ts := 9 } :=
  C7_tombstone_retention.1 stEx 5 9 stC1d msgEx rfl rfl

/-! ## C5 — timestamp monotone in seq -/

theorem seqTsInv_mono {st : St} {c0 c1 : Ts} (h : seqTsInv st c0)
    (hc : c0 ≤ c1) : seqTsInv st c1 := by
  intro rid l hl
  obtain ⟨h1, h2, h3, h4⟩ := h rid l hl
  exact ⟨h1, h2, fun m hm => le_trans (h3 m hm) hc, h4⟩

/-- Transfer the seq/ts facts along an update that keeps every message's
seq and ts. -/
theorem seqTs_entry_transfer {l0 l : List Msg} {c0 : Ts} {b : Nat}
    (hproj : l.map (fun m => (m.seq, m.ts)) = l0.map (fun m => (m.seq, m.ts)))
    (h1 : List.Pairwise (fun x y : Msg => x.seq < y.seq) l0)
    (h2 : List.Pairwise (fun x y : Msg => x.ts ≤ y.ts) l0)
    (h3 : ∀ m ∈ l0, m.ts ≤ c0)
    (h4 : ∀ m ∈ l0, m.seq < b) :
    List.Pairwise (fun x y : Msg => x.seq < y.seq) l ∧
    List.Pairwise (fun x y : Msg => x.ts ≤ y.ts) l ∧
    (∀ m ∈ l, m.ts ≤ c0) ∧ (∀ m ∈ l, m.seq < b) := by
  have hmem : ∀ m ∈ l, ∃ m0 ∈ l0, m0.seq = m.seq ∧ m0.ts = m.ts := by
    intro m hm
    have h5 : (m.seq, m.ts) ∈ l0.map (fun m => (m.seq, m.ts)) := by
      rw [← hproj]
      exact List.mem_map_of_mem _ hm
    obtain ⟨m0, hm0, he⟩ := List.mem_map.1 h5
    simp only [Prod.mk.injEq] at he
    exact ⟨m0, hm0, he.1, he.2⟩
  refine ⟨?_, ?_, ?_, ?_⟩
  · have e1 : (l.map fun m => (m.seq, m.ts)).Pairwise
        (fun p q : Nat × Ts => p.1 < q.1) := by
      rw [hproj]
      exact (List.pairwise_map).2 h1
    exact (List.pairwise_map (f := fun m : Msg => (m.seq, m.ts))).1 e1
  · have e2 : (l.map fun m => (m.seq, m.ts)).Pairwise
        (fun p q : Nat × Ts => p.2 ≤ q.2) := by
      rw [hproj]
      exact (List.pairwise_map).2 h2
    exact (List.pairwise_map (f := fun m : Msg => (m.seq, m.ts))).1 e2
  · intro m hm
    obtain ⟨m0, hm0, hs, ht⟩ := hmem m hm
    rw [← ht]
    exact h3 m0 hm0
  · intro m hm
    obtain ⟨m0, hm0, hs, ht⟩ := hmem m hm
    rw [← hs]
    exact h4 m0 hm0

/-- From strictly increasing seqs and nondecreasing timestamps, any two
messages of a log satisfy the claim's implication. -/
theorem pairwise_seq_ts {l : List Msg}
    (h1 : List.Pairwise (fun x y : Msg => x.seq < y.seq) l)
    (h2 : List.Pairwise (fun x y : Msg => x.ts ≤ y.ts) l) :
    ∀ m1 ∈ l, ∀ m2 ∈ l, m1.seq < m2.seq → m1.ts ≤ m2.ts := by
  induction l with
  | nil =>
    intro m1 hm1
    simp at hm1
  | cons hd t ih =>
    intro m1 hm1 m2 hm2 hlt
    rcases List.mem_cons.1 hm1 with he1 | hm1t
    · rcases List.mem_cons.1 hm2 with he2 | hm2t
      · rw [he1, he2] at hlt
        omega
      · rw [he1]
        exact (List.pairwise_cons.1 h2).1 m2 hm2t
    · rcases List.mem_cons.1 hm2 with he2 | hm2t
      · have hgt := (List.pairwise_cons.1 h1).1 m1 hm1t
        rw [he2] at hlt
        omega
      · exact ih (List.pairwise_cons.1 h1).2 (List.pairwise_cons.1 h2).2
          m1 hm1t m2 hm2t hlt

/-- A per-message update that keeps seq and ts (edit, react) preserves the
seq/ts invariant. -/
theorem seqTsInv_upd {st : St} {c0 : Ts} {mid2 : Id} {f : Msg → Msg}
    {rm : List (Id × List Msg)}
    (hupd : updMsgInRooms mid2 f st.roomMessages = some rm)
    (hsf : ∀ m, (f m).seq = m.seq) (htf : ∀ m, (f m).ts = m.ts)
    (hInv : seqTsInv st c0) :
    seqTsInv { st with roomMessages := rm } c0 := by
  intro rid l hl
  have hl2 : aget rid rm = some l := hl
  rcases aget_updMsgInRooms hupd rid with hsame | ⟨l0, l1, hl0, hl1, hupd1⟩
  · have hst : aget rid st.roomMessages = some l := by
      rw [← hsame]
      exact hl2
    exact hInv rid l hst
  · have hll : l1 = l := by
      rw [hl1] at hl2
      exact Option.some.inj hl2
    subst hll
    obtain ⟨h1, h2, h3, h4⟩ := hInv rid l0 hl0
    have hproj := updMsgIn_map_proj (fun m => (m.seq, m.ts))
      (fun m => by simp [hsf, htf]) hupd1
    exact seqTs_entry_transfer hproj h1 h2 h3 h4

/-- One post preserves the seq/ts invariant, advancing the clock bound. -/
theorem seqTsInv_post {st : St} {c0 : Ts} (rid a m : Id) (t : String)
    (now : Ts) (hInv : seqTsInv st c0) (hc : c0 ≤ now) :
    seqTsInv (applySOp st (SOp.post rid a m t, now)) now := by
  simp only [applySOp]
  split
  · next p heq =>
    obtain ⟨st1, msg⟩ := p
    unfold handlePostRoomMessage at heq
    by_cases h1 : (aget rid st.rooms).isNone = true
    · rw [if_pos h1] at heq
      simp at heq
    · rw [if_neg h1] at heq
      by_cases h2 : t = ""
      · rw [if_pos h2] at heq
        simp at heq
      · rw [if_neg h2] at heq
        simp only [Except.ok.injEq, Prod.mk.injEq] at heq
        obtain ⟨hst1, hmsg⟩ := heq
        subst hst1
        dsimp only
        intro rid2 l hl
        have harrP : List.Pairwise (fun x y : Msg => x.seq < y.seq)
              ((aget rid st.roomMessages).getD []) ∧
            List.Pairwise (fun x y : Msg => x.ts ≤ y.ts)
              ((aget rid st.roomMessages).getD []) ∧
            (∀ x ∈ (aget rid st.roomMessages).getD [], x.ts ≤ c0) ∧
            (∀ x ∈ (aget rid st.roomMessages).getD [],
              x.seq < orOne (aget rid st.roomNextSeq)) := by
          cases hmm : aget rid st.roomMessages with
          | none => simp
          | some a0 => simpa using hInv rid a0 hmm
        obtain ⟨p1, p2, p3, p4⟩ := harrP
        by_cases he : rid = rid2
        · subst he
          simp only [aget_aset_self, Option.some.injEq] at hl
          subst hl
          refine ⟨?_, ?_, ?_, ?_⟩
          · rw [List.pairwise_append]
            refine ⟨p1, by simp, ?_⟩
            intro x hx y hy
            rw [List.mem_singleton.1 hy]
            exact p4 x hx
          · rw [List.pairwise_append]
            refine ⟨p2, by simp, ?_⟩
            intro x hx y hy
            rw [List.mem_singleton.1 hy]
            exact le_trans (p3 x hx) hc
          · intro x hx
            rcases List.mem_append.1 hx with hx1 | hx2
            · exact le_trans (p3 x hx1) hc
            · rw [List.mem_singleton.1 hx2]
          · intro x hx
            simp only [aget_aset_self]
            have horone : orOne (some (orOne (aget rid st.roomNextSeq) + 1)) =
                orOne (aget rid st.roomNextSeq) + 1 := by
              simp [orOne]
            rw [horone]
            rcases List.mem_append.1 hx with hx1 | hx2
            · have := p4 x hx1
              omega
            · rw [List.mem_singleton.1 hx2]
              show orOne (aget rid st.roomNextSeq) <
                orOne (aget rid st.roomNextSeq) + 1
              omega
        · simp only [aget_aset_ne he] at hl
          obtain ⟨q1, q2, q3, q4⟩ := hInv rid2 l hl
          refine ⟨q1, q2, fun x hx => le_trans (q3 x hx) hc, ?_⟩
          intro x hx
          simp only [aget_aset_ne he]
          exact q4 x hx
  · next e heq => exact seqTsInv_mono hInv hc

/-- Every non-tombstone operation preserves the seq/ts invariant (edit and
react keep `seq`/`ts` of every message; post appends at the next seq with
the current clock value). -/
theorem seqTsInv_applySOp {st : St} {c0 : Ts} (op : SOp) (now : Ts)
    (hInv : seqTsInv st c0) (hc : c0 ≤ now)
    (hnd : ∀ m, op ≠ SOp.del m) :
    seqTsInv (applySOp st (op, now)) now := by
  cases op with
  | post rid a m t => exact seqTsInv_post rid a m t now hInv hc
  | edit m2 cu t =>
    simp only [applySOp]
    split
    · next s heq =>
      unfold handleEditMessage at heq
      cases hf : findMsgInRooms m2 st.roomMessages with
      | none =>
        simp only [hf] at heq
        simp at heq
      | some mm =>
        simp only [hf] at heq
        by_cases ha : mm.author_id ≠ cu
        · rw [if_pos ha] at heq
          simp at heq
        · rw [if_neg ha] at heq
          have hsome : (updMsgInRooms m2
              (fun x => { x with text := t.getD x.text, edited_at := some now })
              st.roomMessages).isSome := by
            rw [updMsgInRooms_isSome, hf]
            rfl
          obtain ⟨rm, hrm⟩ := Option.isSome_iff_exists.1 hsome
          rw [hrm] at heq
          simp only [Option.getD_some, Except.ok.injEq] at heq
          subst heq
          exact seqTsInv_mono
            (seqTsInv_upd hrm (fun x => rfl) (fun x => rfl) hInv) hc
    · next e heq => exact seqTsInv_mono hInv hc
  | reactAdd m2 cu e =>
    simp only [applySOp]
    split
    · next s heq =>
      unfold handleReactAdd at heq
      cases hf : findMsgInRooms m2 st.roomMessages with
      | none =>
        simp only [hf] at heq
        simp at heq
      | some mm =>
        simp only [hf] at heq
        by_cases he2 : e = ""
        · rw [if_pos he2] at heq
          simp at heq
        · rw [if_neg he2] at heq
          have hsome : (updMsgInRooms m2
              (fun x => { x with reacts := addReact e cu x.reacts })
              st.roomMessages).isSome := by
            rw [updMsgInRooms_isSome, hf]
            rfl
          obtain ⟨rm, hrm⟩ := Option.isSome_iff_exists.1 hsome
          rw [hrm] at heq
          simp only [Option.getD_some, Except.ok.injEq] at heq
          subst heq
          exact seqTsInv_mono
            (seqTsInv_upd hrm (fun x => rfl) (fun x => rfl) hInv) hc
    · next e2 heq => exact seqTsInv_mono hInv hc
  | del m2 => exact absurd rfl (hnd m2)

theorem seqTsInv_run (tr : List (SOp × Ts)) :
    ∀ (st : St) (c0 : Ts), seqTsInv st c0 →
    List.Chain (fun x y : Ts => x ≤ y) c0 (tr.map Prod.snd) →
    (∀ p ∈ tr, ∀ m, p.1 ≠ SOp.del m) →
    ∃ c1, seqTsInv (runSOps st tr) c1 := by
  induction tr with
  | nil =>
    intro st c0 hInv hchain hnd
    exact ⟨c0, hInv⟩
  | cons p rest ih =>
    intro st c0 hInv hchain hnd
    obtain ⟨op, now⟩ := p
    rw [List.map_cons, List.chain_cons] at hchain
    exact ih _ now
      (seqTsInv_applySOp op now hInv hchain.1
        (fun m => hnd (op, now) (List.mem_cons_self _ _) m))
      hchain.2
      (fun q hq => hnd q (List.mem_cons_of_mem _ hq))

/-- C5 counterexample: post "a" at time 1 (seq 1), post "b" at time 2
(seq 2), then tombstone the first at time 3 — the handler sets its `ts` to
the deletion time, so now `seq 1 < seq 2` but `ts(seq 1) = 3 > 2 =
ts(seq 2)`. -/
theorem C5_counterexample :
    aget 1 (runSOps stFresh trC5).roomMessages = some [msgC5a, msgC5b] ∧
    msgC5a.seq < msgC5b.seq ∧ msgC5b.ts < msgC5a.ts := by
  refine ⟨rfl, by decide, by decide⟩

/-- C5 (amended): over any sequence of post/edit/react operations — no
tombstone — run with nondecreasing clock values, every room log satisfies
`m1.seq < m2.seq → m1.ts ≤ m2.ts` (post assigns the current clock value to
a fresh highest seq; edit sets only `edited_at`; react touches only the
reaction sets).  The tombstone operation, by contrast, rewrites the deleted
message's `ts` to the deletion time and so can violate the property. -/
theorem C5_ts_monotone_without_tombstone (st : St) (c0 : Ts)
    (tr : List (SOp × Ts)) (hInv : seqTsInv st c0)
    (hchain : List.Chain (fun x y : Ts => x ≤ y) c0 (tr.map Prod.snd))
    (hnd : ∀ p ∈ tr, ∀ m, p.1 ≠ SOp.del m) :
    ∀ rid l, aget rid (runSOps st tr).roomMessages = some l →
      ∀ m1 ∈ l, ∀ m2 ∈ l, m1.seq < m2.seq → m1.ts ≤ m2.ts := by
  obtain ⟨c1, hInv1⟩ := seqTsInv_run tr st c0 hInv hchain hnd
  intro rid l hl
  obtain ⟨h1, h2, h3, h4⟩ := hInv1 rid l hl
  exact pairwise_seq_ts h1 h2

/-- C5 witness: two posts at clock values 1 then 2 give messages with
seq 1/2 and ts 1/2; the earlier-seq one carries the earlier timestamp. -/
theorem C5_ts_monotone_witness : msgWa.ts ≤ msgWb.ts :=
  C5_ts_monotone_without_tombstone stFresh 0 trW
    (by
      intro rid l hl
      by_cases he : (1 : Nat) = rid
      · subst he
        simp only [stFresh] at hl
        simp [aget] at hl
        subst hl
        simp
      · simp only [stFresh] at hl
        simp [aget, he] at hl)
    (by
      simp only [trW, List.map_cons, List.map_nil]
      exact List.Chain.cons (by decide) (List.Chain.cons (by decide) List.Chain.nil))
    (by
      intro p hp m
      fin_cases hp <;> simp)
    1 [msgWa, msgWb] rfl msgWa (by simp) msgWb (by simp) (by decide)

end Orcp
